import Mathlib

/-!
Verification development for jet (Just Edit Text), a command-line
find-and-replace utility.  The Go source (main.go) is shallowly embedded:
byte strings are modelled as lists of characters, file-system actions as an
explicit effect list, and the directory walk as a recursion over an explicit
file tree.  Definitions follow the corresponding Go functions of main.go and
the Go standard-library functions they call (path/filepath Clean, Base, Dir,
Join, Match; regexp restricted to literal patterns).
-/

namespace Jet

/-- Byte strings of the Go program (string and byte-slice values) are
modelled as lists of characters. -/
abbrev Str := List Char

/-- Conversion from a Lean string literal to the model type. -/
def s2l (s : String) : Str := s.data

/- ## Model of the Go standard library regexp engine, restricted to literal
patterns.  A literal pattern matches iff it occurs as a contiguous substring,
and ReplaceAll replaces the leftmost non-overlapping occurrences.  For the
empty pattern the engine matches the empty string at every position, so
ReplaceAll inserts the replacement before every character and at the end. -/

/-- Model of Go regexp Match for a literal pattern: true iff pat occurs as a
contiguous substring of s (the empty pattern matches everywhere). -/
def reMatch (pat : Str) : Str → Bool
  | [] => pat.isEmpty
  | c :: t => pat.isPrefixOf (c :: t) || reMatch pat t

/-- Model of Go regexp ReplaceAll for a literal pattern: replaces the
leftmost non-overlapping occurrences of pat by rep. -/
def reReplace (pat rep : Str) (s : Str) : Str :=
  if h : pat ≠ [] ∧ pat.isPrefixOf s then
    rep ++ reReplace pat rep (s.drop pat.length)
  else
    match s with
    | [] => if pat.isEmpty then rep else []
    | c :: t => (if pat.isEmpty then rep ++ [c] else [c]) ++ reReplace pat rep t
termination_by s.length
decreasing_by
  · have hle : pat.length ≤ s.length :=
      (List.isPrefixOf_iff_prefix.mp h.2).length_le
    have hpos : 0 < pat.length := List.length_pos.mpr h.1
    simp only [List.length_drop]
    omega
  · simp

/-- Transform: one compiled pattern plus its replacement bytes
(struct pair of main.go). -/
structure pair where
  pattern : Str
  replacement : Str
deriving DecidableEq, Repr

/-- Method match of pair: p.pattern.Match(src). -/
def pair.isMatch (p : pair) (src : Str) : Bool := reMatch p.pattern src

/-- Method replaceAll of pair: p.pattern.ReplaceAll(src, p.replacement). -/
def pair.replaceAll (p : pair) (src : Str) : Str :=
  reReplace p.pattern p.replacement src

/-- TransformChain: ordered sequence of Transforms (type pairset of main.go). -/
abbrev pairset := List pair

/-- Method match of pairset: true iff at least one pair matches src
(the loop of main.go lines 77-84). -/
def pairset.isMatch : pairset → Str → Bool
  | [], _ => false
  | p :: ps, src => if p.isMatch src then true else pairset.isMatch ps src

/-- Method replaceAll of pairset: each pair is applied to the output of the
previous one (the loop of main.go lines 86-91). -/
def pairset.replaceAll : pairset → Str → Str
  | [], src => src
  | p :: ps, src => pairset.replaceAll ps (p.replaceAll src)

/- ## Model of Go path/filepath for Unix paths (separator '/').  Clean is
implemented on the list of '/'-separated components, applying the four
lexical rules documented for filepath.Clean: drop empty components, drop
single-dot components, a dot-dot component removes the preceding component
when one exists, and dot-dot components at the start of a rooted path are
dropped. -/

/-- Component of the single-dot path element. -/
def dotC : Str := ['.']

/-- Component of the dot-dot path element. -/
def ddotC : Str := ['.', '.']

/-- Splits a path on the separator character; always returns a non-empty
list of separator-free components. -/
def splitSlash : Str → List Str
  | [] => [[]]
  | c :: t =>
    if c = '/' then [] :: splitSlash t
    else
      match splitSlash t with
      | s :: ss => (c :: s) :: ss
      | [] => [[c]]

/-- Joins components with the separator character. -/
def joinSlash : List Str → Str
  | [] => []
  | [c] => c
  | c :: c2 :: cs => c ++ '/' :: joinSlash (c2 :: cs)

/-- Stack pass of filepath.Clean over the component list; acc holds the
already-processed components in reverse order. -/
def cleanStack (rooted : Bool) (acc : List Str) : List Str → List Str
  | [] => acc
  | c :: cs =>
    if c = [] ∨ c = dotC then cleanStack rooted acc cs
    else if c = ddotC then
      match acc with
      | [] => if rooted then cleanStack rooted [] cs else cleanStack rooted [ddotC] cs
      | d :: ds =>
        if d = ddotC then cleanStack rooted (c :: d :: ds) cs
        else cleanStack rooted ds cs
    else cleanStack rooted (c :: acc) cs

/-- Model of Go filepath.Clean (Unix). -/
def clean (p : Str) : Str :=
  if p = [] then dotC
  else
    let rooted := p.head? = some '/'
    let comps := (cleanStack rooted [] (splitSlash p)).reverse
    let out := (if rooted then ['/'] else []) ++ joinSlash comps
    if out = [] then dotC else out

/-- Removes all trailing separators. -/
def dropTrailSlash (p : Str) : Str :=
  (p.reverse.dropWhile (fun c => c = '/')).reverse

/-- Suffix of p after its last separator (all of p when p has none). -/
def afterLastSlash (p : Str) : Str :=
  (p.reverse.takeWhile (fun c => c ≠ '/')).reverse

/-- Prefix of p up to and including its last separator (empty when p has
none). -/
def upToLastSlash (p : Str) : Str :=
  (p.reverse.dropWhile (fun c => c ≠ '/')).reverse

/-- Model of Go filepath.Base: last element of the path after dropping
trailing separators; dot for the empty path, the separator when the path
consists only of separators. -/
def base (p : Str) : Str :=
  if p = [] then dotC
  else
    let b := afterLastSlash (dropTrailSlash p)
    if b = [] then ['/'] else b

/-- Model of Go filepath.Dir: everything up to the final separator,
cleaned. -/
def dir (p : Str) : Str := clean (upToLastSlash p)

/-- Model of Go filepath.Join on two elements: empty elements are dropped
and the result is cleaned. -/
def join (a b : Str) : Str :=
  if a ≠ [] then clean (a ++ '/' :: b)
  else if b ≠ [] then clean b
  else []

/-- Function depth of main.go: count of path separators plus one. -/
def depth (path : Str) : Int := (path.count '/' : Int) + 1

/-- Function isHidden of main.go: a name other than dot and dot-dot that
starts with a dot. -/
def isHidden (name : Str) : Bool :=
  name ≠ dotC && name ≠ ddotC && dotC.isPrefixOf name

/-- Function containsDash of main.go: whether some entry equals the stdin
sentinel. -/
def containsDash : List Str → Bool
  | [] => false
  | f :: fs => if f = ['-'] then true else containsDash fs

/- Sanity checks of the filepath model. -/

example : clean (s2l "a//b/./c") = s2l "a/b/c" := by decide
example : clean (s2l "a/../x") = s2l "x" := by decide
example : clean (s2l "/..") = s2l "/" := by decide
example : clean (s2l "./-") = s2l "-" := by decide
example : clean (s2l "..") = s2l ".." := by decide
example : clean (s2l "") = s2l "." := by decide
example : base (s2l "a/foo") = s2l "foo" := by decide
example : base (s2l "/") = s2l "/" := by decide
example : base (s2l "a/") = s2l "a" := by decide
example : dir (s2l "a/foo") = s2l "a" := by decide
example : dir (s2l "foo") = s2l "." := by decide
example : dir (s2l "/x") = s2l "/" := by decide
example : join (s2l "a") (s2l "b/c") = s2l "a/b/c" := by decide
example : join (s2l ".") (s2l "nb") = s2l "nb" := by decide
example : join (s2l "a") (s2l "..") = s2l "." := by decide
example : depth (s2l "a/b/c") = 3 := by decide
example : isHidden (s2l ".git") = true := by decide
example : isHidden (s2l ".") = false := by decide
example : isHidden (s2l "..") = false := by decide

/- ## Model of Go path/filepath.Match (Go 1.16 and later, Unix rules).
Errors (ErrBadPattern) are modelled with Except Unit.  The helper getEsc
reads one possibly-escaped character of a character class; scanRanges is the
range-parsing loop of matchChunk; matchChunkGo is the chunk-matching loop
with its failed flag, which keeps parsing the chunk after a mismatch so that
malformed patterns are always detected; scanChunk splits the pattern into a
star prefix, one chunk and the remaining pattern; starLoop is the retry loop
for a starred chunk; validChunks is the trailing syntax check run before
returning a no-error mismatch. -/

/-- Helper getEsc of filepath.Match: one possibly-escaped character of a
character class. -/
def getEsc : Str → Except Unit (Char × Str)
  | [] => .error ()
  | c :: t =>
    if c = '-' ∨ c = ']' then .error ()
    else if c = '\\' then
      match t with
      | [] => .error ()
      | d :: t2 => if t2 = [] then .error () else .ok (d, t2)
    else if t = [] then .error () else .ok (c, t)

theorem getEsc_length {ch : Str} {r : Char} {rest : Str}
    (h : getEsc ch = .ok (r, rest)) : rest.length < ch.length := by
  match ch with
  | [] => simp [getEsc] at h
  | c :: t =>
    simp only [getEsc] at h
    split at h
    · exact absurd h (by simp)
    · split at h
      · match t with
        | [] => simp at h
        | d :: t2 =>
          simp only at h
          split at h
          · exact absurd h (by simp)
          · simp only [Except.ok.injEq, Prod.mk.injEq] at h
            simp [← h.2, List.length_cons]
            omega
      · split at h
        · exact absurd h (by simp)
        · simp only [Except.ok.injEq, Prod.mk.injEq] at h
          simp [← h.2]

/-- Range-parsing loop of matchChunk: parses the ranges of a character
class against the rune r, returning whether r matched some range together
with the chunk remaining after the closing bracket. -/
def scanRanges (r : Char) (chunk : Str) (nrange : Nat) (m : Bool) :
    Except Unit (Bool × Str) :=
  if chunk.headD ' ' = ']' ∧ chunk ≠ [] ∧ nrange > 0 then .ok (m, chunk.tail)
  else
    match hlo : getEsc chunk with
    | .error _ => .error ()
    | .ok (lo, ch1) =>
      match hhi : (if ch1.headD ' ' = '-' then getEsc ch1.tail else Except.ok (lo, ch1)) with
      | .error _ => .error ()
      | .ok (hi, ch2) =>
        scanRanges r ch2 (nrange + 1) (m || (decide (lo ≤ r) && decide (r ≤ hi)))
termination_by chunk.length
decreasing_by
  have h1 : ch1.length < chunk.length := getEsc_length hlo
  split at hhi
  · have h2 : ch2.length < ch1.tail.length := getEsc_length hhi
    have h3 : ch1.tail.length ≤ ch1.length := by
      cases ch1 <;> simp
    omega
  · simp only [Except.ok.injEq, Prod.mk.injEq] at hhi
    rw [← hhi.2]
    omega


theorem scanRanges_length (r : Char) (ch : Str) (n : Nat) (m : Bool) :
    ∀ b rest, scanRanges r ch n m = .ok (b, rest) → rest.length < ch.length := by
  induction ch, n, m using scanRanges.induct (r := r) with
  | case1 chunk nrange m h =>
    intro b rest heq
    rw [scanRanges, if_pos h] at heq
    simp only [Except.ok.injEq, Prod.mk.injEq] at heq
    have hne := h.2.1
    rw [← heq.2]
    cases chunk with
    | nil => exact absurd rfl hne
    | cons c t => simp
  | case2 chunk nrange m h a herr =>
    intro b rest heq
    rw [scanRanges, if_neg h] at heq
    rw [herr] at heq
    exact absurd heq (by simp)
  | case3 chunk nrange m h lo ch1 hlo a herr =>
    intro b rest heq
    rw [scanRanges, if_neg h] at heq
    rw [hlo] at heq
    simp only at heq
    rw [dite_eq_ite] at herr
    rw [herr] at heq
    exact absurd heq (by simp)
  | case4 chunk nrange m h lo ch1 hlo hi ch2 hhi ih =>
    intro b rest heq
    rw [scanRanges, if_neg h] at heq
    rw [hlo] at heq
    simp only at heq
    rw [dite_eq_ite] at hhi
    rw [hhi] at heq
    simp only at heq
    have hr := ih b rest heq
    have h1 : ch1.length < chunk.length := getEsc_length hlo
    have h2 : ch2.length ≤ ch1.length := by
      by_cases hd : ch1.headD ' ' = '-'
      · rw [if_pos hd] at hhi
        have h4 := getEsc_length hhi
        have h3 : ch1.tail.length ≤ ch1.length := by cases ch1 <;> simp
        omega
      · rw [if_neg hd] at hhi
        simp only [Except.ok.injEq, Prod.mk.injEq] at hhi
        rw [← hhi.2]
    omega

example : reMatch (s2l "foo") (s2l "a foo b") = true := by decide
example : reMatch (s2l "foo") (s2l "fo of") = false := by decide
example : reReplace (s2l "foo") (s2l "ba") (s2l "foofoo x foo") = s2l "baba x ba" := by
  simp [reReplace, s2l]
example : reReplace (s2l "aa") (s2l "b") (s2l "aaa") = s2l "ba" := by
  simp [reReplace, s2l]
example :
    pairset.replaceAll [⟨s2l "foo", s2l "baz"⟩, ⟨s2l "baz", s2l "qux"⟩] (s2l "foo")
      = s2l "qux" := by
  simp [pairset.replaceAll, pair.replaceAll, reReplace, s2l]

/-- Caret handling of a character class in matchChunk: the negation flag
and the chunk remaining after the optional leading caret. -/
def classNeg : Str → Bool × Str
  | '^' :: crr => (true, crr)
  | cr => (false, cr)

theorem classNeg_length (cr : Str) : (classNeg cr).2.length ≤ cr.length := by
  match cr with
  | [] => simp [classNeg]
  | c :: t =>
    by_cases hc : c = '^'
    · subst hc
      simp [classNeg]
    · have : classNeg (c :: t) = (false, c :: t) := by
        cases t <;> simp_all [classNeg]
      rw [this]

/-- Chunk-matching loop of filepath.Match (function matchChunk) with its
explicit failed flag: ok (some rest) models a successful match with rest of
the name left, ok none a well-formed mismatch, error a malformed pattern. -/
def matchChunkGo (chunk s : Str) (failed : Bool) : Except Unit (Option Str) :=
  match chunk with
  | [] => if failed then .ok none else .ok (some s)
  | c :: cr =>
    let failed1 := failed || s.isEmpty
    if c = '[' then
      let r : Char := if failed1 then ' ' else s.headD ' '
      let s1 : Str := if failed1 then s else s.tail
      match hsc : scanRanges r (classNeg cr).2 0 false with
      | .error _ => .error ()
      | .ok (matched, cr2) =>
        matchChunkGo cr2 s1 (failed1 || (matched == (classNeg cr).1))
    else if c = '?' then
      if failed1 then matchChunkGo cr s true
      else matchChunkGo cr s.tail (decide (s.headD ' ' = '/'))
    else if c = '\\' then
      match cr with
      | [] => .error ()
      | d :: cr2 =>
        if failed1 then matchChunkGo cr2 s true
        else matchChunkGo cr2 s.tail (decide (d ≠ s.headD ' '))
    else
      if failed1 then matchChunkGo cr s true
      else matchChunkGo cr s.tail (decide (c ≠ s.headD ' '))
termination_by chunk.length
decreasing_by
  · have h1 := scanRanges_length _ _ _ _ _ _ hsc
    exact lt_of_lt_of_le h1 (le_trans (classNeg_length _) (by simp))
  all_goals simp only [List.length_cons]
  all_goals omega

/-- Function matchChunk of filepath.Match. -/
def matchChunk (chunk s : Str) : Except Unit (Option Str) :=
  matchChunkGo chunk s false

/-- Chunk scanner of filepath.Match past the star prefix: collects
characters into the chunk until an unbracketed star, tracking the
inside-a-class flag and skipping the character after a backslash. -/
def scanChunkCore (inrange : Bool) : Str → Str × Str
  | [] => ([], [])
  | c :: t =>
    if c = '\\' then
      match t with
      | [] => (['\\'], [])
      | d :: t2 =>
        let p := scanChunkCore inrange t2
        ('\\' :: d :: p.1, p.2)
    else if c = '[' then
      let p := scanChunkCore true t
      (c :: p.1, p.2)
    else if c = ']' then
      let p := scanChunkCore false t
      (c :: p.1, p.2)
    else if c = '*' then
      if inrange then
        let p := scanChunkCore inrange t
        (c :: p.1, p.2)
      else ([], c :: t)
    else
      let p := scanChunkCore inrange t
      (c :: p.1, p.2)

/-- Star-prefix stripper of scanChunk. -/
def stripStars : Str → Bool × Str
  | [] => (false, [])
  | c :: t => if c = '*' then (true, (stripStars t).2) else (false, c :: t)

/-- Function scanChunk of filepath.Match: splits the pattern into a star
flag, the first chunk and the remaining pattern. -/
def scanChunk (pattern : Str) : Bool × Str × Str :=
  let sp := stripStars pattern
  let p := scanChunkCore false sp.2
  (sp.1, p.1, p.2)

theorem scanChunkCore_length (i : Bool) (p : Str) :
    (scanChunkCore i p).2.length ≤ p.length := by
  induction i, p using scanChunkCore.induct with
  | case1 i =>
    rw [scanChunkCore.eq_def]
  | case2 i =>
    rw [scanChunkCore.eq_def]
    simp
  | case3 i d t2 ih =>
    rw [scanChunkCore.eq_def]
    simp only [List.length_cons, reduceIte]
    omega
  | case4 i t h ih =>
    rw [scanChunkCore.eq_def]
    simp only [if_neg h, reduceIte, List.length_cons]
    omega
  | case5 i t h1 h2 ih =>
    rw [scanChunkCore.eq_def]
    simp only [if_neg h1, if_neg h2, reduceIte, List.length_cons]
    omega
  | case6 t h1 h2 h3 ih =>
    rw [scanChunkCore.eq_def]
    simp only [if_neg h1, if_neg h2, if_neg h3, reduceIte, List.length_cons]
    omega
  | case7 i t hi h1 h2 h3 =>
    rw [scanChunkCore.eq_def]
    simp only [if_neg h1, if_neg h2, if_neg h3, reduceIte]
    simp [hi]
  | case8 i c t h1 h2 h3 h4 ih =>
    rw [scanChunkCore.eq_def]
    simp only [if_neg h1, if_neg h2, if_neg h3, if_neg h4, List.length_cons]
    omega

theorem stripStars_length (p : Str) : (stripStars p).2.length ≤ p.length := by
  induction p using stripStars.induct with
  | case1 => simp [stripStars]
  | case2 t ih =>
    rw [stripStars.eq_def]
    simp only [List.length_cons, reduceIte]
    omega
  | case3 c t h =>
    rw [stripStars.eq_def]
    simp [h]

theorem stripStars_head (p : Str) :
    (stripStars p).2 = [] ∨ (stripStars p).2.headD ' ' ≠ '*' := by
  induction p using stripStars.induct with
  | case1 => simp [stripStars]
  | case2 t ih =>
    rw [stripStars.eq_def]
    simpa using ih
  | case3 c t h =>
    rw [stripStars.eq_def]
    simp [h]

theorem scanChunk_rest_length (p : Str) (hp : p ≠ []) :
    (scanChunk p).2.2.length < p.length := by
  match p with
  | c :: t =>
    by_cases hc : c = '*'
    · subst hc
      have h1 : (stripStars ('*' :: t)).2.length ≤ t.length := by
        rw [stripStars.eq_def]
        simp only [List.length_cons, reduceIte]
        exact stripStars_length t
      have h2 := scanChunkCore_length false (stripStars ('*' :: t)).2
      simp only [scanChunk, List.length_cons]
      omega
    · have hs : stripStars (c :: t) = (false, c :: t) := by
        rw [stripStars.eq_def]
        simp [hc]
      have h2 : (scanChunkCore false (c :: t)).2.length ≤ t.length := by
        rw [scanChunkCore.eq_def]
        dsimp only
        by_cases h1 : c = '\\'
        · subst h1
          cases t with
          | nil => simp
          | cons d t2 =>
            simp only [List.length_cons, reduceIte]
            have := scanChunkCore_length false t2
            omega
        · rw [if_neg h1]
          by_cases hb : c = '['
          · rw [if_pos hb]
            exact scanChunkCore_length true t
          · rw [if_neg hb]
            by_cases hc2 : c = ']'
            · rw [if_pos hc2]
              exact scanChunkCore_length false t
            · rw [if_neg hc2]
              rw [if_neg hc]
              exact scanChunkCore_length false t
      simp only [scanChunk, hs, List.length_cons]
      omega

/-- Star-retry loop of filepath.Match: tries to match the chunk at every
later position of the name, never skipping past a separator. -/
def starLoop (chunk rest : Str) : Str → Except Unit (Option Str)
  | [] => .ok none
  | c :: n2 =>
    if c = '/' then .ok none
    else
      match matchChunk chunk n2 with
      | .error _ => .error ()
      | .ok (some t) =>
        if rest = [] ∧ t ≠ [] then starLoop chunk rest n2 else .ok (some t)
      | .ok none => starLoop chunk rest n2

/-- Trailing syntax check of filepath.Match: verifies every remaining chunk
of the pattern is well formed before Match returns a no-error mismatch. -/
def validChunks (p : Str) : Except Unit Unit :=
  if hp : p = [] then .ok ()
  else
    match matchChunk (scanChunk p).2.1 [] with
    | .error _ => .error ()
    | .ok _ => validChunks (scanChunk p).2.2
termination_by p.length
decreasing_by
  exact scanChunk_rest_length _ hp

mutual

/-- Model of Go path/filepath.Match (Unix, Go 1.16 and later): ok b states
whether name matches pattern, error models ErrBadPattern. -/
def MatchGo (pattern name : Str) : Except Unit Bool :=
  if hp : pattern = [] then .ok (decide (name = []))
  else
    if (scanChunk pattern).1 ∧ (scanChunk pattern).2.1 = [] then
      .ok (!(name.contains '/'))
    else
      match matchChunk (scanChunk pattern).2.1 name with
      | .error _ => .error ()
      | .ok (some t) =>
        if t = [] ∨ (scanChunk pattern).2.2 ≠ [] then MatchGo (scanChunk pattern).2.2 t
        else matchFallback (scanChunk pattern).1 (scanChunk pattern).2.1
               (scanChunk pattern).2.2 name
      | .ok none =>
        matchFallback (scanChunk pattern).1 (scanChunk pattern).2.1
          (scanChunk pattern).2.2 name
termination_by (pattern.length, 0)
decreasing_by
  all_goals exact Prod.Lex.left _ _ (scanChunk_rest_length _ hp)

/-- Continuation of the Match loop after a failed chunk match: the starred
retry over the name followed by the trailing syntax check. -/
def matchFallback (star : Bool) (chunk rest name : Str) : Except Unit Bool :=
  if star then
    match starLoop chunk rest name with
    | .error _ => .error ()
    | .ok (some t) => MatchGo rest t
    | .ok none =>
      match validChunks rest with
      | .error _ => .error ()
      | .ok _ => .ok false
  else
    match validChunks rest with
    | .error _ => .error ()
    | .ok _ => .ok false
termination_by (rest.length, 1)
decreasing_by
  · exact Prod.Lex.right _ (by omega)

end

theorem scanRanges_unfold (r : Char) (ch : Str) (n : Nat) (m : Bool) :
    scanRanges r ch n m =
      if ch.headD ' ' = ']' ∧ ch ≠ [] ∧ n > 0 then .ok (m, ch.tail)
      else
        match getEsc ch with
        | .error _ => .error ()
        | .ok (lo, ch1) =>
          match (if ch1.headD ' ' = '-' then getEsc ch1.tail else Except.ok (lo, ch1)) with
          | .error _ => .error ()
          | .ok (hi, ch2) =>
            scanRanges r ch2 (n + 1) (m || (decide (lo ≤ r) && decide (r ≤ hi))) := by
  rw [scanRanges.eq_def]
  split
  · rfl
  · cases hge : getEsc ch with
    | error a => rfl
    | ok p =>
      obtain ⟨lo, ch1⟩ := p
      dsimp only
      split <;> simp_all

theorem matchChunkGo_unfold (chunk s : Str) (failed : Bool) :
    matchChunkGo chunk s failed =
      match chunk with
      | [] => if failed then .ok none else .ok (some s)
      | c :: cr =>
        let failed1 := failed || s.isEmpty
        if c = '[' then
          let r : Char := if failed1 then ' ' else s.headD ' '
          let s1 : Str := if failed1 then s else s.tail
          match scanRanges r (classNeg cr).2 0 false with
          | .error _ => .error ()
          | .ok (matched, cr2) =>
            matchChunkGo cr2 s1 (failed1 || (matched == (classNeg cr).1))
        else if c = '?' then
          if failed1 then matchChunkGo cr s true
          else matchChunkGo cr s.tail (decide (s.headD ' ' = '/'))
        else if c = '\\' then
          match cr with
          | [] => .error ()
          | d :: cr2 =>
            if failed1 then matchChunkGo cr2 s true
            else matchChunkGo cr2 s.tail (decide (d ≠ s.headD ' '))
        else
          if failed1 then matchChunkGo cr s true
          else matchChunkGo cr s.tail (decide (c ≠ s.headD ' ')) := by
  rw [matchChunkGo.eq_def]
  cases chunk with
  | nil => rfl
  | cons c cr =>
    dsimp only
    split
    · split <;> simp_all
    · rfl

/- Sanity checks of the Match model. -/

section
set_option maxRecDepth 4000

example : MatchGo (s2l "*") (s2l "foo") = .ok true := by
  simp [MatchGo, matchFallback, matchChunk, matchChunkGo_unfold, scanChunk, scanChunkCore,
    stripStars, scanRanges_unfold, starLoop, validChunks, getEsc, classNeg, s2l]

example : MatchGo (s2l "*.txt") (s2l "a.txt") = .ok true := by
  simp [MatchGo, matchFallback, matchChunk, matchChunkGo_unfold, scanChunk, scanChunkCore,
    stripStars, scanRanges_unfold, starLoop, validChunks, getEsc, classNeg, s2l]

example : MatchGo (s2l "a[") (s2l "b") = .error () := by
  simp [MatchGo, matchFallback, matchChunk, matchChunkGo_unfold, scanChunk, scanChunkCore,
    stripStars, scanRanges_unfold, starLoop, validChunks, getEsc, classNeg, s2l]

example : MatchGo (s2l "[a-c]x") (s2l "bx") = .ok true := by
  simp [MatchGo, matchFallback, matchChunk, matchChunkGo_unfold, scanChunk, scanChunkCore,
    stripStars, scanRanges_unfold, starLoop, validChunks, getEsc, classNeg, s2l]

end

/- ## Effect model of the walker.  File-system and console actions of
main.go are recorded as an explicit effect list: reads, stats, writes,
renames and prints (fmt Printf and Println of main.go write to standard
output).  The file system seen by content edits is a map from path to
content and permission bits; stats and renames are modelled as succeeding,
and a read of an absent path as the read error, which main.go prints and
then abandons the task. -/

/-- Output stream of a console print. -/
inductive Stream' where
  | stdout
  | stderr
deriving DecidableEq, Repr

/-- One observable action of the program. -/
inductive Effect where
  | print (s : Stream') (msg : Str)
  | readFile (path : Str)
  | statFile (path : Str)
  | writeFile (path : Str) (content : Str) (perm : Nat)
  | rename (oldPath newPath : Str)
deriving DecidableEq, Repr

/-- Content view of the file system: content bytes and permission bits per
path. -/
abbrev FS := Str → Option (Str × Nat)

/-- Struct walker of main.go: the parsed configuration plus the transform
chain.  The embedded WaitGroup is the completion barrier and carries no
data. -/
structure walker where
  ToStdout : Bool := false
  Glob : Str := ['*']
  IsVerbose : Bool := false
  MaxDepth : Int := -1
  IncludeHidden : Bool := false
  ReplaceNames : Bool := false
  NamesOnly : Bool := false
  pairs : pairset := []
deriving DecidableEq, Repr

/-- Message of filepath.ErrBadPattern. -/
def badPatternMsg : Str := s2l "syntax error in pattern"

/-- Representative text of a file read error printed by walker.edit (the
exact wording of the operating-system error is immaterial). -/
def readErrMsg (path : Str) : Str := path ++ s2l ": read error"

/-- Representative text of a per-entry walk error printed by
walker.processFile (the exact wording is immaterial). -/
def walkErrMsg : Str := s2l "walk error"

/-- Verbose-mode message of walker.edit. -/
def writingMsg (path : Str) : Str := s2l "writing " ++ path

/-- Verbose-mode message of walker.editFilename. -/
def renamingMsg (path newpath : Str) : Str :=
  s2l "renaming " ++ path ++ s2l " to " ++ newpath

/-- Method matchGlob of walker (main.go lines 105-111): filepath.Match of
the glob against the base name; a match error is printed and false is
returned. -/
def walker.matchGlob (w : walker) (path : Str) : Bool × List Effect :=
  match MatchGo w.Glob (base path) with
  | .error _ => (false, [.print .stdout badPatternMsg])
  | .ok ok => (ok, [])

/-- Method edit of walker (main.go lines 113-143): read the file, and
either print the replaced content to standard output or rewrite the file in
place with the permission bits read back from stat. -/
def walker.edit (w : walker) (fs : FS) (path : Str) : List Effect :=
  .readFile path ::
    match fs path with
    | none => [.print .stdout (readErrMsg path)]
    | some (b, perm) =>
      if w.ToStdout then [.print .stdout (pairset.replaceAll w.pairs b)]
      else
        (if w.IsVerbose then [.print .stdout (writingMsg path)] else []) ++
          .statFile path :: [.writeFile path (pairset.replaceAll w.pairs b) perm]

/-- Method editStdin of walker (main.go lines 145-152): stdin holds the
bytes read from standard input up to the zero byte or end of input; the
replaced bytes go to standard output. -/
def walker.editStdin (w : walker) (stdin : Str) : List Effect :=
  [.print .stdout (pairset.replaceAll w.pairs stdin)]

/-- Method editFilename of walker (main.go lines 154-175): replace within
the base name, join with the directory, and rename unless nothing changed;
the rename is modelled as succeeding, returning the new path. -/
def walker.editFilename (w : walker) (path : Str) : Str × List Effect :=
  let b := base path
  let newbase := pairset.replaceAll w.pairs b
  let newpath := join (dir path) newbase
  if newbase = b then (path, [])
  else
    (newpath,
      (if w.IsVerbose then [.print .stdout (renamingMsg path newpath)] else []) ++
        [.rename path newpath])

/-- Body of the goroutine dispatched by walker.processFile (main.go lines
201-210): optional filename edit, then a content edit when the entry is a
regular file, names-only is unset and the possibly renamed path still
matches the glob. -/
def walker.dispatchTask (w : walker) (fs : FS) (path : Str) (isDir : Bool) :
    List Effect :=
  let r := if w.NamesOnly || w.ReplaceNames then w.editFilename path else (path, [])
  r.2 ++
    (if !isDir && !w.NamesOnly then
      let g := w.matchGlob r.1
      g.2 ++ (if g.1 then w.edit fs r.1 else [])
    else [])

/-- Return value of the walk callback: nil or fs.SkipDir. -/
inductive WalkRet where
  | nil
  | skipDir
deriving DecidableEq, Repr

/-- Result of walker.processFile on one entry: the returned value, the
effects of the callback itself, and the effect list of the dispatched
goroutine when one was started. -/
structure ProcResult where
  ret : WalkRet
  effects : List Effect
  task : Option (List Effect)
deriving DecidableEq, Repr

/-- Method processFile of walker (main.go lines 181-214): per-entry error
reporting, the depth check, the hidden check, and the glob-gated dispatch
of the edit goroutine. -/
def walker.processFile (w : walker) (fs : FS) (path name : Str) (isDir : Bool)
    (errFlag : Bool) : ProcResult :=
  if errFlag then ⟨.nil, [.print .stdout walkErrMsg], none⟩
  else if isDir && decide (w.MaxDepth ≥ 0) && decide (depth path > w.MaxDepth) then
    ⟨.skipDir, [], none⟩
  else if isHidden name && !w.IncludeHidden then
    ⟨if isDir then .skipDir else .nil, [], none⟩
  else
    let g := w.matchGlob path
    if g.1 then ⟨.nil, g.2, some (w.dispatchTask fs path isDir)⟩
    else ⟨.nil, g.2, none⟩

/-- Directory tree used to model filepath.WalkDir: a regular file with
content or a directory with ordered children. -/
inductive Tree where
  | file (name : Str) (content : Str)
  | dir (name : Str) (children : List Tree)

/-- Entry name of a tree node. -/
def Tree.name : Tree → Str
  | .file n _ => n
  | .dir n _ => n

/-- Whether a tree node is a directory. -/
def Tree.isDir : Tree → Bool
  | .file _ _ => false
  | .dir _ _ => true

mutual

/-- Number of entries of a tree. -/
def Tree.size : Tree → Nat
  | .file _ _ => 1
  | .dir _ cs => 1 + Tree.sizeList cs

/-- Total number of entries of a forest. -/
def Tree.sizeList : List Tree → Nat
  | [] => 0
  | c :: cs => Tree.size c + Tree.sizeList cs

end

/-- One visited entry of a walk: its path, entry name, kind, the callback
return, the callback effects and the dispatched task when one started. -/
structure Visit where
  path : Str
  name : Str
  isDir : Bool
  ret : WalkRet
  effects : List Effect
  task : Option (List Effect)
deriving DecidableEq, Repr

mutual

/-- Model of filepath.WalkDir rooted at path over tree t, invoking
walker.processFile on every visited entry: SkipDir from a directory skips
its contents, SkipDir from a file (never produced by this callback) would
skip the remaining siblings, signalled by the boolean. -/
def walkTree (w : walker) (fs : FS) (path : Str) : Tree → List Visit × Bool
  | .file name _ =>
    let r := w.processFile fs path name false false
    ([⟨path, name, false, r.ret, r.effects, r.task⟩], r.ret = .skipDir)
  | .dir name children =>
    let r := w.processFile fs path name true false
    match r.ret with
    | .skipDir => ([⟨path, name, true, .skipDir, r.effects, r.task⟩], false)
    | .nil =>
      (⟨path, name, true, .nil, r.effects, r.task⟩ ::
        walkChildren w fs path children, false)

/-- Walk of the ordered children of a directory, stopping early when a
child signals SkipDir from a file. -/
def walkChildren (w : walker) (fs : FS) (dirPath : Str) : List Tree → List Visit
  | [] => []
  | c :: cs =>
    let r := walkTree w fs (join dirPath c.name) c
    if r.2 then r.1 else r.1 ++ walkChildren w fs dirPath cs

end

/-- Root lookup of the walked paths: the tree found at a root path, or none
when the initial lstat fails. -/
abbrev Roots := Str → Option Tree

/-- All effects of one visit: callback effects then the task effects. -/
def Visit.allEffects (v : Visit) : List Effect :=
  v.effects ++ v.task.getD []

/-- All effects of a list of visits. -/
def visitsEffects (vs : List Visit) : List Effect :=
  (vs.map Visit.allEffects).flatten

/-- One iteration of walker.Walk (main.go lines 219-227): the stdin
sentinel routes to editStdin, a failing root reports the error through the
callback, and otherwise the tree is walked. -/
def walker.walkOne (w : walker) (roots : Roots) (fs : FS) (stdin : Str)
    (p : Str) : List Effect :=
  if p = ['-'] then w.editStdin stdin
  else
    match roots p with
    | none => (w.processFile fs p (base p) false true).effects
    | some t => visitsEffects (walkTree w fs p t).1

/-- Method Walk of walker (main.go lines 216-228) over the path
arguments. -/
def walker.Walk (w : walker) (roots : Roots) (fs : FS) (stdin : Str) :
    List Str → List Effect
  | [] => []
  | p :: ps => w.walkOne roots fs stdin p ++ w.Walk roots fs stdin ps

/- ## Configuration parsing (parseFlags of main.go).  The walker argument
holds the flag values and the pairs accumulated from the -e flags (an empty
pairs list models the nil pairset); args holds the positional arguments.
Literal patterns always compile, so the regexp-compilation failure exit of
the first-form parse cannot occur in this model. -/

/-- Outcome of parseFlags: a process exit with the given code, or the
configured walker with the cleaned path arguments. -/
inductive ParseResult where
  | exit (code : Nat)
  | ok (w : walker) (files : List Str)
deriving DecidableEq, Repr

/-- Abridged usage text printed by the usage function of main.go via fmt
Printf, hence to standard output (the full wording is immaterial). -/
def usageText : Str := s2l "jet - Just Edit Text ... Usage ... Options ..."

/-- Effects of the usage function of main.go. -/
def usageEffects : List Effect := [.print .stdout usageText]

/-- Error text printed when the stdin sentinel is mixed with other paths
(main.go line 300). -/
def dashErrText : Str := s2l "cannot edit multiple files and stdin at the same time"

/-- Function parseFlags of main.go (lines 248-304), starting from the
flag-parsed state: the early usage exits, the first-form pattern and
replacement taken from the leading arguments, path cleaning, and the
stdin-sentinel conflict check. -/
def parseFlags (w : walker) (args : List Str) : ParseResult × List Effect :=
  if w.pairs ≠ [] ∧ args.length < 1 then (.exit 1, usageEffects)
  else if w.pairs = [] then
    match args with
    | a0 :: a1 :: a2 :: rest2 =>
      let w2 := { w with pairs := [⟨a0, a1⟩] }
      let files := (a2 :: rest2).map clean
      if files.length > 1 ∧ containsDash files then
        (.exit 1, [.print .stdout dashErrText])
      else (.ok w2 files, [])
    | _ => (.exit 1, usageEffects)
  else
    let files := args.map clean
    if files.length > 1 ∧ containsDash files then
      (.exit 1, [.print .stdout dashErrText])
    else (.ok w files, [])

/-- Function main of main.go: parse, then walk unless parsing exited. -/
def mainRun (w : walker) (args : List Str) (roots : Roots) (fs : FS)
    (stdin : Str) : List Effect :=
  match parseFlags w args with
  | (.exit _, effs) => effs
  | (.ok w2 files, effs) => effs ++ w2.Walk roots fs stdin files

/- ## Helper lemmas. -/

/-- Whether an effect reads or writes file content. -/
def Effect.readsOrWritesContent : Effect → Bool
  | .readFile _ => true
  | .writeFile _ _ _ => true
  | _ => false

theorem reReplace_of_not_match (pat rep : Str) :
    ∀ s, reMatch pat s = false → reReplace pat rep s = s := by
  intro s
  induction s with
  | nil =>
    intro h
    rw [reMatch] at h
    rw [reReplace]
    rw [dif_neg (by simp_all [List.isEmpty_iff])]
    simp [h]
  | cons c t ih =>
    intro h
    rw [reMatch, Bool.or_eq_false_iff] at h
    rw [reReplace]
    rw [dif_neg (by simp [h.1])]
    have hne : ¬pat.isEmpty := by
      intro hema
      rw [List.isEmpty_iff] at hema
      subst hema
      simp [List.isPrefixOf] at h
    simp only [if_neg hne]
    rw [ih h.2]
    simp

theorem pairset_replaceAll_of_not_match (ps : pairset) :
    ∀ b, pairset.isMatch ps b = false → pairset.replaceAll ps b = b := by
  induction ps with
  | nil => intro b h; rfl
  | cons p ps ih =>
    intro b h
    rw [pairset.isMatch] at h
    by_cases hp : p.isMatch b
    · simp [hp] at h
    · simp only [hp, if_neg] at h
      have hid : p.replaceAll b = b :=
        reReplace_of_not_match p.pattern p.replacement b
          (by simpa [pair.isMatch] using hp)
      rw [pairset.replaceAll, hid]
      simp only [Bool.false_eq_true, if_false] at h
      exact ih b h

theorem pairset_replaceAll_foldl (ps : pairset) :
    ∀ b, pairset.replaceAll ps b = ps.foldl (fun acc p => p.replaceAll acc) b := by
  induction ps with
  | nil => intro b; rfl
  | cons p ps ih =>
    intro b
    rw [pairset.replaceAll, List.foldl_cons, ih]

/-- Predicate: no effect of the list reads or writes file content. -/
def noContentIO (es : List Effect) : Bool :=
  es.all (fun e => !e.readsOrWritesContent)

theorem matchGlob_effects_safe (w : walker) (path : Str) :
    noContentIO (w.matchGlob path).2 = true := by
  rw [walker.matchGlob]
  cases MatchGo w.Glob (base path) <;>
    simp [ noContentIO, Effect.readsOrWritesContent]

theorem editFilename_effects_safe (w : walker) (path : Str) :
    noContentIO (w.editFilename path).2 = true := by
  rw [walker.editFilename]
  split
  · simp [ noContentIO]
  · split <;> simp [ noContentIO, Effect.readsOrWritesContent]

theorem dispatchTask_namesOnly (w : walker) (fs : FS) (path : Str) (isDir : Bool)
    (h : w.NamesOnly = true) :
    noContentIO (w.dispatchTask fs path isDir) = true := by
  rw [walker.dispatchTask]
  dsimp only
  rw [h]
  have h1 := editFilename_effects_safe w path
  simp only [Bool.or_true, Bool.true_or, if_pos rfl, Bool.not_true, Bool.and_false,
    Bool.false_eq_true, if_false, List.append_nil, noContentIO] at h1 ⊢
  simpa using h1

theorem processFile_effects_safe (w : walker) (fs : FS) (path name : Str)
    (isDir errFlag : Bool) :
    noContentIO (w.processFile fs path name isDir errFlag).effects = true := by
  rw [walker.processFile]
  dsimp only
  split
  · simp [ noContentIO, Effect.readsOrWritesContent]
  · split
    · simp [ noContentIO]
    · split
      · simp [ noContentIO]
      · split <;> exact matchGlob_effects_safe w path

theorem processFile_task_namesOnly (w : walker) (fs : FS) (path name : Str)
    (isDir errFlag : Bool) (h : w.NamesOnly = true) :
    noContentIO ((w.processFile fs path name isDir errFlag).task.getD []) = true := by
  rw [walker.processFile]
  dsimp only
  split
  · simp [ noContentIO]
  · split
    · simp [ noContentIO]
    · split
      · simp [ noContentIO]
      · split
        · simpa using dispatchTask_namesOnly w fs path isDir h
        · simp [ noContentIO]

theorem noContentIO_append (a b : List Effect) :
    noContentIO (a ++ b) = ( noContentIO a && noContentIO b) := by
  simp [ noContentIO, List.all_append]

theorem walkTree_namesOnly (w : walker) (fs : FS) (h : w.NamesOnly = true) :
    ∀ (path : Str) (t : Tree),
      noContentIO (visitsEffects (walkTree w fs path t).1) = true := by
  have main := walkTree.induct w fs
    (motive_1 := fun path t =>
      noContentIO (visitsEffects (walkTree w fs path t).1) = true)
    (motive_2 := fun dirPath cs =>
      noContentIO (visitsEffects (walkChildren w fs dirPath cs)) = true)
  intro path t
  apply main
  · intro path n content
    simp only [walkTree, visitsEffects, List.map, List.flatten, Visit.allEffects,
      List.append_nil]
    rw [ noContentIO_append]
    rw [processFile_effects_safe, processFile_task_namesOnly w fs path n false false h]
    rfl
  · intro path n children r hr
    simp only [walkTree]
    rw [hr]
    simp only [visitsEffects, List.map, List.flatten, Visit.allEffects, List.append_nil]
    rw [ noContentIO_append]
    rw [processFile_effects_safe, processFile_task_namesOnly w fs path n true false h]
    rfl
  · intro path n children r hr ih
    simp only [walkTree]
    rw [hr]
    simp only [visitsEffects, List.map, List.flatten, Visit.allEffects]
    rw [ noContentIO_append]
    simp only [visitsEffects] at ih
    rw [ noContentIO_append]
    rw [processFile_effects_safe, processFile_task_namesOnly w fs path n true false h, ih]
    rfl
  · intro dirPath
    simp [walkChildren, visitsEffects, noContentIO]
  · intro dirPath c cs r hr ih
    simp only [walkChildren]
    rw [hr]
    simp only [if_pos rfl]
    exact ih
  · intro dirPath c cs r hr ih1 ih2
    simp only [walkChildren]
    rw [if_neg hr]
    simp only [visitsEffects, List.map_append, List.flatten_append] at ih1 ih2 ⊢
    rw [ noContentIO_append, ih1, ih2]
    rfl

theorem Walk_namesOnly (w : walker) (roots : Roots) (fs : FS) (stdin : Str)
    (h : w.NamesOnly = true) :
    ∀ files, noContentIO (w.Walk roots fs stdin files) = true := by
  intro files
  induction files with
  | nil => simp [walker.Walk, noContentIO]
  | cons p ps ih =>
    rw [walker.Walk, noContentIO_append, ih]
    have h1 : noContentIO (w.walkOne roots fs stdin p) = true := by
      rw [walker.walkOne]
      split
      · simp [walker.editStdin, noContentIO, Effect.readsOrWritesContent]
      · cases hr : roots p with
        | none => simpa using processFile_effects_safe w fs p (base p) false true
        | some t => simpa using walkTree_namesOnly w fs h p t
    rw [h1]
    rfl

theorem parseFlags_effects_safe (w : walker) (args : List Str) :
    noContentIO (parseFlags w args).2 = true := by
  rcases args with _ | ⟨a0, _ | ⟨a1, _ | ⟨a2, rest2⟩⟩⟩ <;>
    simp only [parseFlags] <;>
    (try split_ifs) <;>
    simp [usageEffects, noContentIO, Effect.readsOrWritesContent]

theorem parseFlags_ok_namesOnly (w : walker) (args : List Str) (w2 : walker)
    (files : List Str) (effs : List Effect)
    (h : parseFlags w args = (.ok w2 files, effs)) :
    w2.NamesOnly = w.NamesOnly := by
  rcases args with _ | ⟨a0, _ | ⟨a1, _ | ⟨a2, rest2⟩⟩⟩ <;>
    simp only [parseFlags] at h
  all_goals try split at h
  all_goals try split at h
  all_goals try split at h
  all_goals
    first
    | (simp only [Prod.mk.injEq, ParseResult.ok.injEq] at h
       rw [← h.1.1])
    | simp at h

theorem processFile_hidden (w : walker) (fs : FS) (path name : Str) (isDir : Bool)
    (hh : isHidden name = true) (hi : w.IncludeHidden = false) :
    w.processFile fs path name isDir false =
      ⟨if isDir then .skipDir else .nil, [], none⟩ := by
  rw [walker.processFile]
  simp only [Bool.false_eq_true, if_false]
  cases isDir with
  | false =>
    simp only [Bool.false_and, Bool.false_eq_true, if_false]
    rw [hh, hi]
    simp
  | true =>
    split
    · simp
    · rw [hh, hi]
      simp

theorem processFile_file_ret (w : walker) (fs : FS) (path name : Str) (e : Bool) :
    (w.processFile fs path name false e).ret = .nil := by
  rw [walker.processFile]
  split
  · rfl
  · simp only [Bool.false_and, Bool.false_eq_true, if_false]
    split
    · rfl
    · split <;> rfl

theorem walkTree_snd_false (w : walker) (fs : FS) (path : Str) (t : Tree) :
    (walkTree w fs path t).2 = false := by
  cases t with
  | file n c =>
    simp only [walkTree]
    rw [processFile_file_ret]
    simp
  | dir n cs =>
    simp only [walkTree]
    split <;> rfl

/- ## Lemmas about the filepath model, used for the rename locality
claim. -/

theorem splitSlash_ne_nil (p : Str) : splitSlash p ≠ [] := by
  cases p with
  | nil => simp [splitSlash]
  | cons c t =>
    rw [splitSlash]
    split
    · simp
    · cases h : splitSlash t with
      | nil => simp
      | cons s ss => simp

theorem splitSlash_append (a b : Str) :
    splitSlash (a ++ '/' :: b) = splitSlash a ++ splitSlash b := by
  induction a with
  | nil => simp [splitSlash]
  | cons c t ih =>
    by_cases hc : c = '/'
    · subst hc
      rw [List.cons_append, splitSlash, if_pos rfl, ih, splitSlash, if_pos rfl]
      rfl
    · rw [List.cons_append, splitSlash, if_neg hc, ih]
      rw [splitSlash, if_neg hc]
      cases h : splitSlash t with
      | nil => exact absurd h (splitSlash_ne_nil t)
      | cons s ss => simp

theorem splitSlash_noslash (p : Str) (h : ¬ '/' ∈ p) : splitSlash p = [p] := by
  induction p with
  | nil => rfl
  | cons c t ih =>
    simp only [List.mem_cons, not_or] at h
    rw [splitSlash, if_neg (by exact fun hx => h.1 hx.symm)]
    rw [ih h.2]

theorem splitSlash_mem_noslash (p : Str) : ∀ c ∈ splitSlash p, ¬ '/' ∈ c := by
  induction p with
  | nil => simp [splitSlash]
  | cons c t ih =>
    intro x hx
    rw [splitSlash] at hx
    split at hx
    · rcases List.mem_cons.mp hx with h | h
      · rw [h]
        simp
      · exact ih x h
    · rename_i hc
      cases hsp : splitSlash t with
      | nil => exact absurd hsp (splitSlash_ne_nil t)
      | cons s ss =>
        rw [hsp] at hx
        simp only at hx
        rcases List.mem_cons.mp hx with h | h
        · subst h
          intro hmem
          rcases List.mem_cons.mp hmem with h2 | h2
          · exact hc h2.symm
          · exact ih s (by rw [hsp]; exact List.mem_cons_self s ss) h2
        · exact ih x (by rw [hsp]; exact List.mem_cons_of_mem s h)

theorem cleanStack_cons (rooted : Bool) (acc : List Str) (c : Str)
    (cs : List Str) :
    cleanStack rooted acc (c :: cs) =
      if c = [] ∨ c = dotC then cleanStack rooted acc cs
      else if c = ddotC then
        match acc with
        | [] =>
          if rooted then cleanStack rooted [] cs else cleanStack rooted [ddotC] cs
        | d :: ds =>
          if d = ddotC then cleanStack rooted (c :: d :: ds) cs
          else cleanStack rooted ds cs
      else cleanStack rooted (c :: acc) cs := by
  rw [cleanStack.eq_def]

theorem cleanStack_append (rooted : Bool) :
    ∀ (xs ys acc : List Str),
      cleanStack rooted acc (xs ++ ys) =
        cleanStack rooted (cleanStack rooted acc xs) ys := by
  intro xs
  induction xs with
  | nil => intro ys acc; rfl
  | cons c cs ih =>
    intro ys acc
    rw [List.cons_append, cleanStack_cons, cleanStack_cons]
    split
    · exact ih ys acc
    · split
      · cases acc with
        | nil =>
          dsimp only
          split
          · exact ih ys []
          · exact ih ys [ddotC]
        | cons d ds =>
          dsimp only
          split
          · exact ih ys (c :: d :: ds)
          · exact ih ys ds
      · exact ih ys (c :: acc)

theorem cleanStack_mem (rooted : Bool) :
    ∀ (xs acc : List Str) (c : Str), c ∈ cleanStack rooted acc xs →
      c ∈ acc ∨ c ∈ xs ∨ c = ddotC := by
  intro xs
  induction xs with
  | nil =>
    intro acc c h
    exact Or.inl h
  | cons x cs ih =>
    intro acc c h
    rw [cleanStack_cons] at h
    split at h
    · rcases ih _ _ h with h2 | h2 | h2
      · exact Or.inl h2
      · exact Or.inr (Or.inl (List.mem_cons_of_mem x h2))
      · exact Or.inr (Or.inr h2)
    · split at h
      · rename_i hdd
        cases acc with
        | nil =>
          dsimp only at h
          split at h
          · rcases ih _ _ h with h2 | h2 | h2
            · exact absurd h2 (List.not_mem_nil c)
            · exact Or.inr (Or.inl (List.mem_cons_of_mem x h2))
            · exact Or.inr (Or.inr h2)
          · rcases ih _ _ h with h2 | h2 | h2
            · rcases List.mem_singleton.mp h2 with h3
              exact Or.inr (Or.inr h3)
            · exact Or.inr (Or.inl (List.mem_cons_of_mem x h2))
            · exact Or.inr (Or.inr h2)
        | cons d ds =>
          dsimp only at h
          split at h
          · rcases ih _ _ h with h2 | h2 | h2
            · rcases List.mem_cons.mp h2 with h3 | h3
              · exact Or.inr (Or.inr (h3.trans hdd))
              · exact Or.inl h3
            · exact Or.inr (Or.inl (List.mem_cons_of_mem _ h2))
            · exact Or.inr (Or.inr h2)
          · rcases ih _ _ h with h2 | h2 | h2
            · exact Or.inl (List.mem_cons_of_mem d h2)
            · exact Or.inr (Or.inl (List.mem_cons_of_mem _ h2))
            · exact Or.inr (Or.inr h2)
      · rcases ih _ _ h with h2 | h2 | h2
        · rcases List.mem_cons.mp h2 with h3 | h3
          · exact Or.inr (Or.inl (by rw [h3]; exact List.mem_cons_self _ _))
          · exact Or.inl h3
        · exact Or.inr (Or.inl (List.mem_cons_of_mem _ h2))
        · exact Or.inr (Or.inr h2)

/-- Shape invariant of the Clean stack: simple components on top of a run
of dot-dot components, the latter only for relative paths. -/
def StackInv (rooted : Bool) (S : List Str) : Prop :=
  ∃ r k, S = r ++ List.replicate k ddotC ∧
    (∀ c ∈ r, c ≠ [] ∧ c ≠ dotC ∧ c ≠ ddotC) ∧ (rooted = true → k = 0)

theorem cleanStack_inv (rooted : Bool) :
    ∀ (xs acc : List Str), StackInv rooted acc →
      StackInv rooted (cleanStack rooted acc xs) := by
  intro xs
  induction xs with
  | nil => intro acc h; exact h
  | cons c cs ih =>
    intro acc h
    rw [cleanStack_cons]
    split
    · exact ih acc h
    · split
      · rename_i hsimp hdd
        cases acc with
        | nil =>
          dsimp only
          split
          · exact ih [] ⟨[], 0, rfl, by simp, fun _ => rfl⟩
          · rename_i hrt
            refine ih [ddotC] ⟨[], 1, by simp, by simp, fun h2 => absurd h2 hrt⟩
        | cons d ds =>
          dsimp only
          obtain ⟨r, k, hacc, hval, hk⟩ := h
          split
          · rename_i hd
            cases r with
            | nil =>
              simp only [List.nil_append] at hacc
              cases k with
              | zero => simp at hacc
              | succ k2 =>
                rw [List.replicate_succ] at hacc
                obtain ⟨hd2, hds⟩ := List.cons.inj hacc
                refine ih _ ⟨[], k2 + 2, ?_, by simp, ?_⟩
                · rw [List.nil_append, List.replicate_succ, List.replicate_succ,
                    hdd, hd2, hds]
                · intro hroot
                  exact absurd (hk hroot) (by simp)
            | cons e r2 =>
              obtain ⟨hde, hds⟩ := List.cons.inj hacc
              exact absurd (hd.symm.trans hde)
                (fun hcon => (hval e (List.mem_cons_self e r2)).2.2 hcon.symm)
          · rename_i hd
            cases r with
            | nil =>
              simp only [List.nil_append] at hacc
              cases k with
              | zero => simp at hacc
              | succ k2 =>
                rw [List.replicate_succ] at hacc
                obtain ⟨hd2, _⟩ := List.cons.inj hacc
                exact absurd hd2 hd
            | cons e r2 =>
              obtain ⟨hde, hds⟩ := List.cons.inj hacc
              refine ih _ ⟨r2, k, hds, ?_, hk⟩
              intro c2 hc2
              exact hval c2 (List.mem_cons_of_mem e hc2)
      · rename_i hsimp hdd
        obtain ⟨r, k, hacc, hval, hk⟩ := h
        refine ih _ ⟨c :: r, k, by rw [hacc, List.cons_append], ?_, hk⟩
        intro c2 hc2
        rcases List.mem_cons.mp hc2 with h2 | h2
        · subst h2
          push_neg at hsimp
          exact ⟨hsimp.1, hsimp.2, hdd⟩
        · exact hval c2 h2

theorem cleanStack_simples (rooted : Bool) :
    ∀ (zs acc : List Str), (∀ c ∈ zs, c ≠ [] ∧ c ≠ dotC ∧ c ≠ ddotC) →
      cleanStack rooted acc zs = zs.reverse ++ acc := by
  intro zs
  induction zs with
  | nil => intro acc h; simp [cleanStack]
  | cons c cs ih =>
    intro acc h
    have hc := h c (List.mem_cons_self c cs)
    rw [cleanStack_cons, if_neg (by tauto), if_neg hc.2.2]
    rw [ih (c :: acc) (fun c2 hc2 => h c2 (List.mem_cons_of_mem c hc2))]
    simp

theorem cleanStack_dots :
    ∀ (k j : Nat) (ys : List Str),
      cleanStack false (List.replicate j ddotC) (List.replicate k ddotC ++ ys) =
        cleanStack false (List.replicate (k + j) ddotC) ys := by
  intro k
  induction k with
  | zero => intro j ys; simp
  | succ k2 ih =>
    intro j ys
    rw [List.replicate_succ, List.cons_append, cleanStack_cons]
    rw [if_neg (by simp [ddotC, dotC]), if_pos rfl]
    cases j with
    | zero =>
      simp only [List.replicate_zero]
      simp only [Bool.false_eq_true, if_false]
      have h2 := ih 1 ys
      simp only [List.replicate_one] at h2
      rw [h2, Nat.add_zero]
    | succ j2 =>
      rw [List.replicate_succ]
      dsimp only
      rw [if_pos rfl]
      have h2 : (ddotC :: ddotC :: List.replicate j2 ddotC) =
          List.replicate (j2 + 2) ddotC := by
        rw [List.replicate_succ, List.replicate_succ]
      rw [h2, ih (j2 + 2) ys]
      have : k2 + (j2 + 2) = k2 + 1 + (j2 + 1) := by omega
      rw [this]

theorem cleanStack_replay (rooted : Bool) (r : List Str) (k : Nat)
    (hr : ∀ c ∈ r, c ≠ [] ∧ c ≠ dotC ∧ c ≠ ddotC) (hk : rooted = true → k = 0) :
    cleanStack rooted [] ((r ++ List.replicate k ddotC).reverse) =
      r ++ List.replicate k ddotC := by
  rw [List.reverse_append, List.reverse_replicate]
  cases rooted with
  | true =>
    rw [hk rfl]
    simp only [List.replicate, List.nil_append, List.append_nil]
    rw [cleanStack_simples true r.reverse [] (by simpa using hr)]
    simp
  | false =>
    have h0 : cleanStack false [] (List.replicate k ddotC) = List.replicate k ddotC := by
      have h1 := cleanStack_dots k 0 []
      simp only [List.append_nil, Nat.add_zero, List.replicate_zero] at h1
      rw [h1]
      rfl
    rw [cleanStack_append false (List.replicate k ddotC) r.reverse []]
    rw [h0]
    rw [cleanStack_simples false r.reverse (List.replicate k ddotC) (by simpa using hr)]
    simp

theorem joinSlash_append_single (xs : List Str) (c : Str) (h : xs ≠ []) :
    joinSlash (xs ++ [c]) = joinSlash xs ++ '/' :: c := by
  induction xs with
  | nil => exact absurd rfl h
  | cons a as ih =>
    cases as with
    | nil => simp [joinSlash]
    | cons a2 as2 =>
      simp only [List.cons_append]
      rw [joinSlash]
      rw [show a2 :: (as2 ++ [c]) = (a2 :: as2) ++ [c] from rfl]
      rw [ih (by simp)]
      simp [joinSlash]

theorem joinSlash_cons_ex (c1 : Str) (rest : List Str) :
    ∃ X, joinSlash (c1 :: rest) = c1 ++ X := by
  cases rest with
  | nil => exact ⟨[], by simp [joinSlash]⟩
  | cons c2 cs2 => exact ⟨'/' :: joinSlash (c2 :: cs2), rfl⟩

theorem splitSlash_joinSlash (comps : List Str) (h1 : comps ≠ [])
    (h2 : ∀ c ∈ comps, ¬ '/' ∈ c) : splitSlash (joinSlash comps) = comps := by
  induction comps with
  | nil => exact absurd rfl h1
  | cons c cs ih =>
    cases cs with
    | nil =>
      rw [joinSlash]
      exact splitSlash_noslash c (h2 c (List.mem_cons_self c []))
    | cons c2 cs2 =>
      rw [joinSlash, splitSlash_append]
      rw [splitSlash_noslash c (h2 c (List.mem_cons_self c _))]
      rw [ih (by simp) (fun x hx => h2 x (List.mem_cons_of_mem c hx))]
      rfl

theorem dropWhile_append_all {p : Char → Bool} :
    ∀ (l1 l2 : List Char), (∀ x ∈ l1, p x = true) →
      List.dropWhile p (l1 ++ l2) = List.dropWhile p l2 := by
  intro l1
  induction l1 with
  | nil => intro l2 h; rfl
  | cons a l ih =>
    intro l2 h
    rw [List.cons_append, List.dropWhile_cons_of_pos (h a (List.mem_cons_self a l))]
    exact ih l2 (fun x hx => h x (List.mem_cons_of_mem a hx))

theorem upToLastSlash_noslash (p : Str) (h : ¬ '/' ∈ p) : upToLastSlash p = [] := by
  rw [upToLastSlash]
  have h2 : List.dropWhile (fun c => c ≠ '/') p.reverse = [] := by
    rw [List.dropWhile_eq_nil_iff]
    intro x hx
    simp only [ne_eq, decide_eq_true_eq]
    intro hcon
    subst hcon
    exact h (List.mem_reverse.mp hx)
  rw [h2]
  rfl

theorem upToLastSlash_append (a nb : Str) (h : ¬ '/' ∈ nb) :
    upToLastSlash (a ++ '/' :: nb) = a ++ ['/'] := by
  rw [upToLastSlash, List.reverse_append, List.reverse_cons]
  rw [List.append_assoc]
  rw [dropWhile_append_all nb.reverse (['/'] ++ a.reverse) ?hall]
  case hall =>
    intro x hx
    simp only [ne_eq, decide_eq_true_eq]
    intro hcon
    subst hcon
    exact h (List.mem_reverse.mp hx)
  rw [List.singleton_append, List.dropWhile_cons_of_neg (by simp)]
  rw [List.reverse_cons, List.reverse_reverse]

theorem clean_char (p : Str) (hp : p ≠ []) :
    clean p =
      (let out := (if p.head? = some '/' then ['/'] else []) ++
          joinSlash ((cleanStack (decide (p.head? = some '/')) [] (splitSlash p)).reverse)
       if out = [] then dotC else out) := by
  rw [clean, if_neg hp]

theorem head?_append_left (d y : Str) (hd : d ≠ []) : (d ++ y).head? = d.head? := by
  cases d with
  | nil => exact absurd rfl hd
  | cons c t => rfl

theorem dir_noslash (nb : Str) (h4 : ¬ '/' ∈ nb) : dir nb = dotC := by
  rw [dir, upToLastSlash_noslash nb h4]
  rfl

theorem join_dot_simple (nb : Str) (h1 : nb ≠ []) (h2 : nb ≠ dotC)
    (h3 : nb ≠ ddotC) (h4 : ¬ '/' ∈ nb) : join dotC nb = nb := by
  rw [join, if_pos (by simp [dotC])]
  rw [clean_char _ (by simp [dotC])]
  have hsp : splitSlash (dotC ++ '/' :: nb) = [dotC, nb] := by
    rw [splitSlash_append, splitSlash_noslash dotC (by decide),
      splitSlash_noslash nb h4]
    rfl
  have hcs : cleanStack false [] [dotC, nb] = [nb] := by
    rw [cleanStack_cons, if_pos (Or.inr rfl), cleanStack_cons,
      if_neg (by tauto), if_neg h3]
    rfl
  have hhd : (dotC ++ '/' :: nb).head? = some '.' := rfl
  simp only [hsp, hhd]
  simp [hcs, joinSlash, h1]

theorem join_root_simple (nb : Str) (h1 : nb ≠ []) (h2 : nb ≠ dotC)
    (h3 : nb ≠ ddotC) (h4 : ¬ '/' ∈ nb) : join ['/'] nb = '/' :: nb := by
  rw [join, if_pos (by simp)]
  rw [clean_char _ (by simp)]
  have hsp : splitSlash (['/'] ++ '/' :: nb) = [[], [], nb] := by
    rw [splitSlash_append, splitSlash_noslash nb h4]
    rfl
  have hcs : cleanStack true [] [[], [], nb] = [nb] := by
    rw [cleanStack_cons, if_pos (Or.inl rfl), cleanStack_cons, if_pos (Or.inl rfl),
      cleanStack_cons, if_neg (by tauto), if_neg h3]
    rfl
  have hhd : ((['/'] : Str) ++ '/' :: nb).head? = some '/' := rfl
  simp only [hsp, hhd]
  simp [hcs, joinSlash]

theorem dir_root (nb : Str) (h4 : ¬ '/' ∈ nb) : dir ('/' :: nb) = ['/'] := by
  rw [dir]
  have h5 : upToLastSlash ('/' :: nb) = ['/'] := by
    have h6 := upToLastSlash_append [] nb h4
    simpa using h6
  rw [h5]
  rw [clean_char _ (by simp)]
  have hsp : splitSlash (['/'] : Str) = [[], []] := rfl
  have hcs : cleanStack true [] [[], []] = [] := by
    rw [cleanStack_cons, if_pos (Or.inl rfl), cleanStack_cons, if_pos (Or.inl rfl)]
    rfl
  simp only [hsp]
  simp [hcs, joinSlash]

theorem append_slash_ne_nil (d : Str) (y : Str) : d ++ '/' :: y ≠ [] := by
  cases d <;> simp

theorem dir_join_big (rooted : Bool) (S : List Str) (hSne : S ≠ [])
    (hInv : StackInv rooted S) (hnos : ∀ c ∈ S, ¬ '/' ∈ c)
    (hne : ∀ c ∈ S, c ≠ [])
    (nb : Str) (h1 : nb ≠ []) (h2 : nb ≠ dotC) (h3 : nb ≠ ddotC)
    (h4 : ¬ '/' ∈ nb) :
    dir (join ((if rooted then ['/'] else []) ++ joinSlash S.reverse) nb) =
      (if rooted then ['/'] else []) ++ joinSlash S.reverse := by
  obtain ⟨r, k, hS, hval, hk⟩ := hInv
  have hcne : S.reverse ≠ [] := by simpa using hSne
  have hcnos : ∀ c ∈ S.reverse, ¬ '/' ∈ c := by
    intro c hc
    exact hnos c (List.mem_reverse.mp hc)
  have hcneel : ∀ c ∈ S.reverse, c ≠ [] := by
    intro c hc
    exact hne c (List.mem_reverse.mp hc)
  obtain ⟨c1, crest, hcomps⟩ : ∃ c1 crest, S.reverse = c1 :: crest := by
    cases hrev : S.reverse with
    | nil => exact absurd hrev hcne
    | cons a b => exact ⟨a, b, rfl⟩
  have hc1ne : c1 ≠ [] := hcneel c1 (by rw [hcomps]; exact List.mem_cons_self c1 crest)
  obtain ⟨hc, c1t, hc1⟩ : ∃ h t, c1 = h :: t := by
    cases c1 with
    | nil => exact absurd rfl hc1ne
    | cons a b => exact ⟨a, b, rfl⟩
  have hhc : hc ≠ '/' := by
    intro hcon
    refine hcnos c1 (by rw [hcomps]; exact List.mem_cons_self c1 crest) ?_
    rw [hc1, ← hcon]
    exact List.mem_cons_self hc c1t
  obtain ⟨X, hX⟩ := joinSlash_cons_ex c1 crest
  have hjne : joinSlash S.reverse ≠ [] := by
    rw [hcomps, hX, hc1]
    simp
  have hjhd : (joinSlash S.reverse).head? = some hc := by
    rw [hcomps, hX, hc1]
    rfl
  have hreplay : cleanStack rooted [] S.reverse = S := by
    rw [hS, cleanStack_replay rooted r k hval hk]
  have hpush : cleanStack rooted S [nb] = nb :: S := by
    rw [cleanStack_cons, if_neg (by tauto), if_neg h3]
    rfl
  have hsplitj : splitSlash (joinSlash S.reverse) = S.reverse :=
    splitSlash_joinSlash S.reverse hcne hcnos
  have hjapp : joinSlash (S.reverse ++ [nb]) = joinSlash S.reverse ++ '/' :: nb :=
    joinSlash_append_single S.reverse nb hcne
  cases rooted with
  | false =>
    simp only [Bool.false_eq_true, if_false, List.nil_append]
    rw [join, if_pos hjne]
    rw [clean_char _ (append_slash_ne_nil _ _)]
    have hhd : (joinSlash S.reverse ++ '/' :: nb).head? = some hc := by
      rw [head?_append_left _ _ hjne, hjhd]
    have hsp : splitSlash (joinSlash S.reverse ++ '/' :: nb) =
        S.reverse ++ [nb] := by
      rw [splitSlash_append, hsplitj, splitSlash_noslash nb h4]
    have hcs : cleanStack false [] (S.reverse ++ [nb]) = nb :: S := by
      rw [cleanStack_append, hreplay, hpush]
    simp only [hhd, hsp]
    rw [if_neg (show ¬((some hc : Option Char) = some '/') from by simp [hhc]),
      decide_eq_false (show ¬((some hc : Option Char) = some '/') from by simp [hhc])]
    rw [hcs]
    simp only [List.reverse_cons, List.reverse_reverse, List.nil_append, hjapp]
    rw [if_neg (append_slash_ne_nil (joinSlash S.reverse) nb)]
    rw [dir, upToLastSlash_append _ nb h4]
    rw [clean_char _ (by cases hjs : joinSlash S.reverse with
      | nil => exact absurd hjs hjne
      | cons a b => simp)]
    have hhd2 : (joinSlash S.reverse ++ ['/']).head? = some hc := by
      rw [head?_append_left _ _ hjne, hjhd]
    have hsp2 : splitSlash (joinSlash S.reverse ++ ['/']) = S.reverse ++ [[]] := by
      rw [show (['/'] : Str) = '/' :: ([] : Str) from rfl, splitSlash_append, hsplitj]
      rfl
    have hcs2 : cleanStack false [] (S.reverse ++ [[]]) = S := by
      rw [cleanStack_append, hreplay, cleanStack_cons, if_pos (Or.inl rfl)]
      rfl
    simp only [hhd2, hsp2]
    rw [if_neg (show ¬((some hc : Option Char) = some '/') from by simp [hhc]),
      decide_eq_false (show ¬((some hc : Option Char) = some '/') from by simp [hhc])]
    rw [hcs2]
    simp only [List.nil_append]
    rw [if_neg hjne]
  | true =>
    simp only [reduceIte, List.singleton_append]
    have hdne : ('/' :: joinSlash S.reverse : Str) ≠ [] := by simp
    rw [join, if_pos hdne]
    rw [clean_char _ (by simp)]
    simp only [List.cons_append]
    have hhd : ('/' :: (joinSlash S.reverse ++ '/' :: nb) : Str).head? = some '/' := rfl
    have hsps : ∀ t : Str, splitSlash ('/' :: t) = [] :: splitSlash t := by
      intro t
      rfl
    have hsp : splitSlash ('/' :: (joinSlash S.reverse ++ '/' :: nb) : Str) =
        [] :: (S.reverse ++ [nb]) := by
      rw [hsps, splitSlash_append, hsplitj, splitSlash_noslash nb h4]
    have hcs : cleanStack true [] ([] :: (S.reverse ++ [nb])) = nb :: S := by
      rw [cleanStack_cons, if_pos (Or.inl rfl), cleanStack_append, hreplay, hpush]
    simp only [hhd, hsp]
    simp only [if_true, decide_True]
    rw [hcs]
    simp only [List.reverse_cons, List.reverse_reverse, hjapp]
    have houtne : (['/'] : Str) ++ (joinSlash S.reverse ++ '/' :: nb) ≠ [] := by simp
    rw [if_neg houtne]
    rw [show (['/'] : Str) ++ (joinSlash S.reverse ++ '/' :: nb) =
      ('/' :: joinSlash S.reverse : Str) ++ '/' :: nb from by simp]
    rw [dir, upToLastSlash_append _ nb h4]
    rw [clean_char _ (by simp)]
    simp only [List.cons_append]
    have hhd2 : ('/' :: (joinSlash S.reverse ++ ['/']) : Str).head? = some '/' := rfl
    have hsp2 : splitSlash ('/' :: (joinSlash S.reverse ++ ['/']) : Str) =
        [] :: (S.reverse ++ [[]]) := by
      rw [hsps, show (['/'] : Str) = '/' :: ([] : Str) from rfl,
        splitSlash_append, hsplitj]
      rfl
    have hcs2 : cleanStack true [] ([] :: (S.reverse ++ [[]])) = S := by
      rw [cleanStack_cons, if_pos (Or.inl rfl), cleanStack_append, hreplay,
        cleanStack_cons, if_pos (Or.inl rfl)]
      rfl
    simp only [hhd2, hsp2]
    simp only [if_true, decide_True]
    rw [hcs2]
    have houtne2 : (['/'] : Str) ++ joinSlash S.reverse ≠ [] := by simp
    rw [if_neg houtne2]
    simp

theorem dir_join_clean (q nb : Str) (h1 : nb ≠ []) (h2 : nb ≠ dotC)
    (h3 : nb ≠ ddotC) (h4 : ¬ '/' ∈ nb) :
    dir (join (clean q) nb) = clean q := by
  by_cases hq : q = []
  · subst hq
    have hc : clean ([] : Str) = dotC := rfl
    rw [hc, join_dot_simple nb h1 h2 h3 h4, dir_noslash nb h4]
  · rw [clean_char q hq]
    by_cases hroot : q.head? = some '/'
    · simp only [if_pos hroot, decide_eq_true hroot]
      have hInv : StackInv true (cleanStack true [] (splitSlash q)) :=
        cleanStack_inv true (splitSlash q) [] ⟨[], 0, rfl, by simp, fun _ => rfl⟩
      have hnos0 : ∀ c ∈ cleanStack true [] (splitSlash q), ¬ '/' ∈ c := by
        intro c hcmem
        rcases cleanStack_mem true (splitSlash q) [] c hcmem with h | h | h
        · exact absurd h (List.not_mem_nil c)
        · exact splitSlash_mem_noslash q c h
        · subst h
          decide
      have hne0 : ∀ c ∈ cleanStack true [] (splitSlash q), c ≠ [] := by
        intro c hcmem
        obtain ⟨r, k, hS, hval, hk⟩ := hInv
        rw [hS] at hcmem
        rcases List.mem_append.mp hcmem with h | h
        · exact (hval c h).1
        · rw [List.eq_of_mem_replicate h]
          simp [ddotC]
      cases hS0 : cleanStack true [] (splitSlash q) with
      | nil =>
        simp only [List.reverse_nil, joinSlash, List.append_nil]
        rw [if_neg (by simp)]
        rw [join_root_simple nb h1 h2 h3 h4]
        exact dir_root nb h4
      | cons s0 S2 =>
        rw [hS0] at hInv hnos0 hne0
        have hbig := dir_join_big true (s0 :: S2) (by simp) hInv hnos0 hne0
          nb h1 h2 h3 h4
        simp only [if_true] at hbig
        have houtne : (['/'] : Str) ++ joinSlash ((s0 :: S2).reverse) ≠ [] := by simp
        rw [if_neg houtne]
        exact hbig
    · simp only [if_neg hroot, decide_eq_false hroot, List.nil_append]
      have hInv : StackInv false (cleanStack false [] (splitSlash q)) :=
        cleanStack_inv false (splitSlash q) [] ⟨[], 0, rfl, by simp, fun _ => rfl⟩
      have hnos0 : ∀ c ∈ cleanStack false [] (splitSlash q), ¬ '/' ∈ c := by
        intro c hcmem
        rcases cleanStack_mem false (splitSlash q) [] c hcmem with h | h | h
        · exact absurd h (List.not_mem_nil c)
        · exact splitSlash_mem_noslash q c h
        · subst h
          decide
      have hne0 : ∀ c ∈ cleanStack false [] (splitSlash q), c ≠ [] := by
        intro c hcmem
        obtain ⟨r, k, hS, hval, hk⟩ := hInv
        rw [hS] at hcmem
        rcases List.mem_append.mp hcmem with h | h
        · exact (hval c h).1
        · rw [List.eq_of_mem_replicate h]
          simp [ddotC]
      cases hS0 : cleanStack false [] (splitSlash q) with
      | nil =>
        simp only [List.reverse_nil, joinSlash, if_true]
        rw [join_dot_simple nb h1 h2 h3 h4]
        exact dir_noslash nb h4
      | cons s0 S2 =>
        rw [hS0] at hInv hnos0 hne0
        have hbig := dir_join_big false (s0 :: S2) (by simp) hInv hnos0 hne0
          nb h1 h2 h3 h4
        simp only [Bool.false_eq_true, if_false, List.nil_append] at hbig
        have houtne : joinSlash ((s0 :: S2).reverse) ≠ [] := by
          obtain ⟨c1, crest, hcm⟩ : ∃ c1 crest, (s0 :: S2).reverse = c1 :: crest := by
            cases hrv : (s0 :: S2).reverse with
            | nil => simp at hrv
            | cons a b => exact ⟨a, b, rfl⟩
          obtain ⟨X, hX⟩ := joinSlash_cons_ex c1 crest
          rw [hcm, hX]
          have hc1ne : c1 ≠ [] := by
            refine hne0 c1 (List.mem_reverse.mp ?_)
            rw [hcm]
            exact List.mem_cons_self c1 crest
          cases c1 with
          | nil => exact absurd rfl hc1ne
          | cons a b => simp
        rw [if_neg houtne]
        exact hbig

/- ## Claim theorems. -/

/-- C6 (amended): a rename stays within the parent directory whenever the
replaced base name is a plain single component: nonempty, not dot, not
dot-dot and containing no separator; the directory component of the path is
then unchanged. -/
theorem claim_C6 (w : walker) (path : Str)
    (h1 : pairset.replaceAll w.pairs (base path) ≠ [])
    (h2 : pairset.replaceAll w.pairs (base path) ≠ dotC)
    (h3 : pairset.replaceAll w.pairs (base path) ≠ ddotC)
    (h4 : ¬ '/' ∈ pairset.replaceAll w.pairs (base path)) :
    dir (w.editFilename path).1 = dir path := by
  rw [walker.editFilename]
  split
  · rfl
  · exact dir_join_clean (upToLastSlash path) _ h1 h2 h3 h4

/-- Counterexample for C6 as stated: a replacement byte sequence holding a
separator moves the entry to a different parent directory: replacing foo by
b/c renames a/foo to a/b/c, whose directory a/b differs from a. -/
theorem claim_C6_counterexample :
    (walker.editFilename { pairs := [⟨s2l "foo", s2l "b/c"⟩] } (s2l "a/foo")).1 =
        s2l "a/b/c" ∧
      (walker.editFilename { pairs := [⟨s2l "foo", s2l "b/c"⟩] } (s2l "a/foo")).2 =
        [.rename (s2l "a/foo") (s2l "a/b/c")] ∧
      dir (s2l "a/b/c") ≠ dir (s2l "a/foo") := by
  have hb : base (s2l "a/foo") = s2l "foo" := by decide
  have hrep : pairset.replaceAll ([⟨s2l "foo", s2l "b/c"⟩] : pairset) (s2l "foo") =
      s2l "b/c" := by
    simp [pairset.replaceAll, pair.replaceAll, reReplace, s2l]
  refine ⟨?_, ?_, by decide⟩ <;>
  · rw [walker.editFilename]
    dsimp only
    rw [hb, hrep]
    rw [if_neg (by decide)]
    dsimp only
    decide

/-- Witness for the amended C6 at a concrete input: replacing foo by bar
renames a/foo within the same parent directory a. -/
theorem claim_C6_witness :
    dir (walker.editFilename { pairs := [⟨s2l "foo", s2l "bar"⟩] } (s2l "a/foo")).1 =
      dir (s2l "a/foo") := by
  have hrep : pairset.replaceAll
      (walker.pairs { pairs := [⟨s2l "foo", s2l "bar"⟩] }) (base (s2l "a/foo")) =
        s2l "bar" := by
    have hb : base (s2l "a/foo") = s2l "foo" := by decide
    show pairset.replaceAll ([⟨s2l "foo", s2l "bar"⟩] : pairset) (base (s2l "a/foo")) =
      s2l "bar"
    rw [hb]
    simp [pairset.replaceAll, pair.replaceAll, reReplace, s2l]
  exact claim_C6 _ _ (by rw [hrep]; decide) (by rw [hrep]; decide)
    (by rw [hrep]; decide) (by rw [hrep]; decide)


/-- C2: the TransformChain replaceAll equals the left-to-right fold of the
individual replaceAll operations, so the output of Transform i is the input
of Transform i+1; in particular the chain foo to baz then baz to qux applied
to foo yields qux. -/
theorem claim_C2 :
    (∀ (ps : pairset) (b : Str),
        pairset.replaceAll ps b = ps.foldl (fun acc p => p.replaceAll acc) b) ∧
      pairset.replaceAll [⟨s2l "foo", s2l "baz"⟩, ⟨s2l "baz", s2l "qux"⟩]
          (s2l "foo") = s2l "qux" := by
  constructor
  · intro ps b
    exact pairset_replaceAll_foldl ps b
  · simp [pairset.replaceAll, pair.replaceAll, reReplace, s2l]

/-- C7: chain-level match being true is not equivalent to replaceAll
changing the buffer: there is a chain and a buffer with match true whose
replaceAll output equals the input (a later transform undoes the earlier
one). -/
theorem claim_C7 :
    ∃ (T : pairset) (b : Str),
      pairset.isMatch T b = true ∧ pairset.replaceAll T b = b := by
  refine ⟨[⟨s2l "a", s2l "b"⟩, ⟨s2l "b", s2l "a"⟩], s2l "a", by decide, ?_⟩
  simp [pairset.replaceAll, pair.replaceAll, reReplace, s2l]

/-- C1: contrary to the claim, default write-back mode does not gate the
rewrite on the chain match: at a file whose content hello matches no
Transform of the chain foo to bar, walker.edit still emits the write (of
the unchanged content) after read and stat, so the file is overwritten even
though pairset match is false. -/
theorem claim_C1 :
    pairset.isMatch [⟨s2l "foo", s2l "bar"⟩] (s2l "hello") = false ∧
      walker.edit { pairs := [⟨s2l "foo", s2l "bar"⟩] }
          (fun p => if p = s2l "a.txt" then some (s2l "hello", 420) else none)
          (s2l "a.txt") =
        [.readFile (s2l "a.txt"), .statFile (s2l "a.txt"),
          .writeFile (s2l "a.txt") (s2l "hello") 420] := by
  constructor
  · decide
  · simp [walker.edit, pairset.replaceAll, pair.replaceAll, reReplace, s2l]

/-- C3: with names-only set, processing stops after the filename step: no
effect of a whole run reads or writes file content, so file contents are
byte-for-byte unchanged after the run. -/
theorem claim_C3 (w : walker) (args : List Str) (roots : Roots) (fs : FS)
    (stdin : Str) (h : w.NamesOnly = true) :
    noContentIO (mainRun w args roots fs stdin) = true := by
  have hsafe := parseFlags_effects_safe w args
  rw [mainRun]
  rcases hp : parseFlags w args with ⟨r, effs⟩
  rw [hp] at hsafe
  cases r with
  | exit code => exact hsafe
  | ok w2 files =>
    dsimp only
    rw [ noContentIO_append, hsafe]
    have h2 : w2.NamesOnly = true := by
      rw [parseFlags_ok_namesOnly w args w2 files effs hp]
      exact h
    rw [Walk_namesOnly w2 roots fs stdin h2 files]
    rfl

/-- Witness for C3 at a concrete configuration: a names-only run over a
directory holding one matching file performs no content read or write. -/
theorem claim_C3_witness :
    noContentIO
      (mainRun { NamesOnly := true, pairs := [⟨s2l "foo", s2l "bar"⟩] }
        [s2l "d"]
        (fun p => if p = s2l "d" then
            some (Tree.dir (s2l "d") [Tree.file (s2l "foo.txt") (s2l "foo")])
          else none)
        (fun p => if p = s2l "d/foo.txt" then some (s2l "foo", 420) else none)
        []) = true :=
  claim_C3 _ _ _ _ _ rfl

/-- C4: the names dot and dot-dot are never hidden while any other name
starting with a dot is; with include-hidden unset a hidden entry produces a
single visit with no dispatched task (not edited or renamed) and, for a
directory, the whole subtree is skipped; with include-hidden set the entry
name plays no role in processing. -/
theorem claim_C4 :
    (∀ name : Str, isHidden name = true ↔
        (name ≠ dotC ∧ name ≠ ddotC ∧ ∃ rest, name = '.' :: rest)) ∧
      (∀ (w : walker) (fs : FS) (path : Str) (t : Tree),
          w.IncludeHidden = false → isHidden t.name = true →
          walkTree w fs path t =
            ([⟨path, t.name, t.isDir, if t.isDir then .skipDir else .nil, [], none⟩],
              false)) ∧
      (∀ (w : walker) (fs : FS) (path name name' : Str) (isDir e : Bool),
          w.IncludeHidden = true →
          w.processFile fs path name isDir e = w.processFile fs path name' isDir e) := by
  refine ⟨?_, ?_, ?_⟩
  · intro name
    cases name with
    | nil => simp [isHidden, List.isPrefixOf, dotC, ddotC]
    | cons c rest =>
      simp only [isHidden, List.isPrefixOf, dotC, ddotC, Bool.and_eq_true,
        decide_eq_true_eq, List.cons.injEq]
      constructor
      · rintro ⟨⟨h1, h2⟩, h3, -⟩
        have hc : '.' = c := beq_iff_eq.mp h3
        exact ⟨h1, h2, rest, hc.symm, rfl⟩
      · rintro ⟨h1, h2, r, hc, -⟩
        subst hc
        exact ⟨⟨h1, h2⟩, by simp, trivial⟩
  · intro w fs path t hi hh
    cases t with
    | file n c =>
      simp only [Tree.name] at hh
      simp only [walkTree]
      rw [processFile_hidden w fs path n false hh hi]
      simp [Tree.name, Tree.isDir]
    | dir n cs =>
      simp only [Tree.name] at hh
      simp only [walkTree]
      rw [processFile_hidden w fs path n true hh hi]
      simp [Tree.name, Tree.isDir]
  · intro w fs path name name' isDir e hi
    rw [walker.processFile, walker.processFile, hi]
    simp

/-- Witness for C4 at a concrete input: with include-hidden unset, a hidden
directory is visited once with no dispatched task and its subtree is not
descended into. -/
theorem claim_C4_witness :
    walkTree {} (fun _ => none) (s2l ".git")
        (Tree.dir (s2l ".git") [Tree.file (s2l "a") []]) =
      ([⟨s2l ".git", s2l ".git", true, .skipDir, [], none⟩], false) :=
  claim_C4.2.1 _ _ _ _ rfl (by decide)

theorem processFile_ret_nil_of (w : walker) (h1 : w.MaxDepth = -1)
    (h2 : w.IncludeHidden = true) (fs : FS) (path name : Str) (isDir : Bool) :
    (w.processFile fs path name isDir false).ret = .nil := by
  rw [walker.processFile]
  rw [h1, h2]
  simp only [Bool.false_eq_true, if_false]
  have hd : (decide ((-1 : Int) ≥ 0)) = false := by decide
  rw [hd]
  simp only [Bool.and_false, Bool.false_and, Bool.false_eq_true, if_false,
    Bool.not_true, Bool.and_false]
  split <;> rfl

/-- C5: a visited directory at structural depth exceeding a non-negative
max-depth is skipped with its entire subtree (one visit, no task, no
descendants); with max-depth -1 (and hidden filtering disabled) every entry
of the tree is visited. -/
theorem claim_C5 :
    (∀ (w : walker) (fs : FS) (path name : Str) (children : List Tree),
        0 ≤ w.MaxDepth → depth path > w.MaxDepth →
        walkTree w fs path (Tree.dir name children) =
          ([⟨path, name, true, .skipDir, [], none⟩], false)) ∧
      (∀ (w : walker) (fs : FS) (path : Str) (t : Tree),
          w.MaxDepth = -1 → w.IncludeHidden = true →
          (walkTree w fs path t).1.length = t.size) := by
  constructor
  · intro w fs path name children h0 hd
    simp only [walkTree]
    rw [walker.processFile]
    simp only [Bool.false_eq_true, if_false]
    rw [decide_eq_true h0, decide_eq_true hd]
    simp
  · intro w fs path t h1 h2
    have main := walkTree.induct w fs
      (motive_1 := fun path t => (walkTree w fs path t).1.length = t.size)
      (motive_2 := fun dirPath cs =>
        (walkChildren w fs dirPath cs).length = Tree.sizeList cs)
    apply main
    · intro path n content
      simp [walkTree, Tree.size]
    · intro path n children r hr
      rw [processFile_ret_nil_of w h1 h2 fs path n true] at hr
      simp at hr
    · intro path n children r hr ih
      simp only [walkTree]
      rw [processFile_ret_nil_of w h1 h2 fs path n true]
      simp only [List.length_cons, Tree.size]
      rw [ih]
      omega
    · intro dirPath
      simp [walkChildren, Tree.sizeList]
    · intro dirPath c cs r hr ih
      rw [walkTree_snd_false] at hr
      simp at hr
    · intro dirPath c cs r hr ih1 ih2
      simp only [walkChildren]
      rw [walkTree_snd_false]
      simp only [Bool.false_eq_true, if_false, List.length_append, Tree.sizeList]
      rw [ih1, ih2]

/-- Witness for C5 at a concrete input: with max-depth 1, a directory at
depth 2 is visited once, dispatches nothing and its child is not visited. -/
theorem claim_C5_witness :
    walkTree { MaxDepth := 1 } (fun _ => none) (s2l "a/b")
        (Tree.dir (s2l "b") [Tree.file (s2l "c") []]) =
      ([⟨s2l "a/b", s2l "b", true, .skipDir, [], none⟩], false) :=
  claim_C5.1 _ _ _ _ _ (by decide) (by decide)

theorem containsDash_of_mem :
    ∀ (l : List Str), ['-'] ∈ l → containsDash (l.map clean) = true := by
  intro l
  induction l with
  | nil =>
    intro h
    exact absurd h (List.not_mem_nil _)
  | cons a as ih =>
    intro h
    rw [List.map_cons, containsDash]
    rcases List.mem_cons.mp h with h2 | h2
    · rw [← h2]
      rw [show clean (['-'] : Str) = (['-'] : Str) from by decide]
      rw [if_pos rfl]
    · split
      · rfl
      · exact ih h2

/-- C8 (amended): with required positional arguments missing (no pairs and
fewer than three arguments, or pairs present but no path argument), the
program prints the usage text to standard output (not standard error) and
exits with status 1 before any traversal: the whole run consists of that
single print. -/
theorem claim_C8 (w : walker) (args : List Str) (roots : Roots) (fs : FS)
    (stdin : Str)
    (h : (w.pairs ≠ [] ∧ args.length < 1) ∨ (w.pairs = [] ∧ args.length < 3)) :
    parseFlags w args = (.exit 1, usageEffects) ∧
      usageEffects = [Effect.print Stream'.stdout usageText] ∧
      mainRun w args roots fs stdin = usageEffects := by
  have hp : parseFlags w args = (.exit 1, usageEffects) := by
    rcases h with ⟨hne, hlen⟩ | ⟨heq, hlen⟩
    · rcases args with _ | ⟨a0, rest⟩
      · simp only [parseFlags]
        rw [if_pos ⟨hne, by simp⟩]
      · simp at hlen
    · rcases args with _ | ⟨a0, _ | ⟨a1, _ | ⟨a2, rest2⟩⟩⟩
      · simp only [parseFlags]
        rw [if_neg (by simp [heq]), if_pos heq]
      · simp only [parseFlags]
        rw [if_neg (by simp [heq]), if_pos heq]
      · simp only [parseFlags]
        rw [if_neg (by simp [heq]), if_pos heq]
      · simp only [List.length_cons] at hlen
        omega
  refine ⟨hp, rfl, ?_⟩
  rw [mainRun, hp]

/-- Witness for the amended C8: with one transform pair given and no path
argument, the process prints the usage text to standard output and exits
with status 1 without walking anything. -/
theorem claim_C8_witness :
    parseFlags { pairs := [⟨s2l "x", s2l "y"⟩] } [] = (.exit 1, usageEffects) ∧
      usageEffects = [Effect.print Stream'.stdout usageText] ∧
      mainRun { pairs := [⟨s2l "x", s2l "y"⟩] } [] (fun _ => none) (fun _ => none)
        [] = usageEffects :=
  claim_C8 _ _ _ _ _ (Or.inl ⟨by simp, by simp⟩)

/-- Counterexample for C8 as stated: at the concrete input of no pairs and
two arguments, the usage text is printed to standard output, and the effect
list holds no print to standard error, so the claim that usage goes to
standard error is false. -/
theorem claim_C8_counterexample :
    parseFlags {} [s2l "a", s2l "b"] =
        (.exit 1, [Effect.print Stream'.stdout usageText]) ∧
      (parseFlags {} [s2l "a", s2l "b"]).2.all
        (fun e => match e with
          | Effect.print Stream'.stderr _ => false
          | _ => true) = true := by
  have hp : parseFlags {} [s2l "a", s2l "b"] =
      (.exit 1, [Effect.print Stream'.stdout usageText]) := by
    simp only [parseFlags]
    rw [if_pos trivial, ite_self]
    rfl
  exact ⟨hp, by rw [hp]; rfl⟩

/-- C9: supplying the stdin sentinel together with at least one other path
argument is a configuration error: the program prints the conflict message
and exits with status 1, and the whole run consists of that single print,
so no file is read, written or renamed. -/
theorem claim_C9 (w : walker) (args : List Str) (roots : Roots) (fs : FS)
    (stdin : Str)
    (hlen : 2 ≤ (if w.pairs = [] then args.drop 2 else args).length)
    (hmem : ['-'] ∈ (if w.pairs = [] then args.drop 2 else args)) :
    parseFlags w args = (.exit 1, [Effect.print Stream'.stdout dashErrText]) ∧
      mainRun w args roots fs stdin = [Effect.print Stream'.stdout dashErrText] := by
  have hp : parseFlags w args =
      (.exit 1, [Effect.print Stream'.stdout dashErrText]) := by
    by_cases hpair : w.pairs = []
    · rw [if_pos hpair] at hlen hmem
      rcases args with _ | ⟨a0, _ | ⟨a1, _ | ⟨a2, rest2⟩⟩⟩
      · simp at hlen
      · simp at hlen
      · simp at hlen
      · simp only [List.drop_succ_cons, List.drop_zero] at hlen hmem
        simp only [parseFlags]
        rw [if_neg (by simp [hpair]), if_pos hpair]
        rw [if_pos ?both]
        case both =>
          constructor
          · simp only [List.length_map, List.length_cons]
            simp only [List.length_cons] at hlen
            omega
          · exact containsDash_of_mem _ hmem
    · rw [if_neg hpair] at hlen hmem
      rcases args with _ | ⟨a0, _ | ⟨a1, _ | ⟨a2, rest2⟩⟩⟩
      · simp at hlen
      · simp at hlen
      · simp only [parseFlags]
        rw [if_neg (by simp), if_neg hpair]
        rw [if_pos ⟨by simp, containsDash_of_mem _ hmem⟩]
      · simp only [parseFlags]
        rw [if_neg (by simp), if_neg hpair]
        rw [if_pos ?both2]
        case both2 =>
          constructor
          · simp only [List.length_map, List.length_cons]
            omega
          · exact containsDash_of_mem _ hmem
  refine ⟨hp, ?_⟩
  rw [mainRun, hp]

/-- Witness for C9: a pattern, a replacement, the dash sentinel and one
more path argument: the whole run is the single conflict message printed
to standard output. -/
theorem claim_C9_witness :
    parseFlags {} [s2l "p", s2l "r", s2l "-", s2l "f"] =
        (.exit 1, [Effect.print Stream'.stdout dashErrText]) ∧
      mainRun {} [s2l "p", s2l "r", s2l "-", s2l "f"] (fun _ => none)
        (fun _ => none) [] = [Effect.print Stream'.stdout dashErrText] :=
  claim_C9 _ _ _ _ _ (by decide) (by decide)

/- ## C10: a malformed glob errors for every name. -/

theorem scanRanges_cong (N : Nat) :
    ∀ (ch : Str), ch.length ≤ N → ∀ (n : Nat) (r r' : Char) (m m' : Bool),
      (scanRanges r ch n m = .error () → scanRanges r' ch n m' = .error ()) ∧
      (∀ b rest, scanRanges r ch n m = .ok (b, rest) →
        ∃ b', scanRanges r' ch n m' = .ok (b', rest)) := by
  induction N with
  | zero =>
    intro ch hch n r r' m m'
    cases ch with
    | cons c t => simp at hch
    | nil =>
      constructor
      · intro h
        rw [scanRanges_unfold]
        simp [getEsc]
      · intro b rest h
        rw [scanRanges_unfold] at h
        simp [getEsc] at h
  | succ N ih =>
    intro ch hch n r r' m m'
    rw [scanRanges_unfold r ch n m, scanRanges_unfold r' ch n m']
    by_cases hcond : ch.headD ' ' = ']' ∧ ch ≠ [] ∧ n > 0
    · rw [if_pos hcond, if_pos hcond]
      constructor
      · intro h
        exact absurd h (by simp)
      · intro b rest h
        simp only [Except.ok.injEq, Prod.mk.injEq] at h
        exact ⟨m', by rw [h.2]⟩
    · rw [if_neg hcond, if_neg hcond]
      cases hge : getEsc ch with
      | error a =>
        dsimp only
        constructor
        · intro _
          rfl
        · intro b rest h
          exact absurd h (by simp)
      | ok p =>
        obtain ⟨lo, ch1⟩ := p
        dsimp only
        cases hif : (if ch1.headD ' ' = '-' then getEsc ch1.tail
            else Except.ok (lo, ch1)) with
        | error a =>
          dsimp only
          constructor
          · intro _
            rfl
          · intro b rest h
            exact absurd h (by simp)
        | ok q =>
          obtain ⟨hi, ch2⟩ := q
          dsimp only
          have hlen : ch2.length ≤ N := by
            have h1 : ch1.length < ch.length := getEsc_length hge
            have h2 : ch2.length ≤ ch1.length := by
              by_cases hd : ch1.headD ' ' = '-'
              · rw [if_pos hd] at hif
                have h4 := getEsc_length hif
                have h3 : ch1.tail.length ≤ ch1.length := by cases ch1 <;> simp
                omega
              · rw [if_neg hd] at hif
                simp only [Except.ok.injEq, Prod.mk.injEq] at hif
                rw [← hif.2]
            omega
          exact ih ch2 hlen (n + 1) r r' _ _

theorem matchChunkGo_err_cong (N : Nat) :
    ∀ (chunk : Str), chunk.length ≤ N →
      ∀ (s : Str) (f : Bool) (s' : Str) (f' : Bool),
        matchChunkGo chunk s f = .error () → matchChunkGo chunk s' f' = .error () := by
  induction N with
  | zero =>
    intro chunk hch s f s' f' h
    cases chunk with
    | cons c t => simp at hch
    | nil =>
      rw [matchChunkGo_unfold] at h
      dsimp only at h
      split at h <;> simp at h
  | succ N ih =>
    intro chunk hch s f s' f' h
    cases chunk with
    | nil =>
      rw [matchChunkGo_unfold] at h
      dsimp only at h
      split at h <;> simp at h
    | cons c cr =>
      have hcr : cr.length ≤ N := by
        simp only [List.length_cons] at hch
        omega
      rw [matchChunkGo_unfold] at h ⊢
      dsimp only at h ⊢
      by_cases hbr : c = '['
      · rw [if_pos hbr] at h ⊢
        cases hsc : scanRanges (if (f || s.isEmpty) = true then ' ' else s.headD ' ')
            (classNeg cr).2 0 false with
        | error a =>
          have h2 := (scanRanges_cong (classNeg cr).2.length (classNeg cr).2 le_rfl 0
            (if (f || s.isEmpty) = true then ' ' else s.headD ' ')
            (if (f' || s'.isEmpty) = true then ' ' else s'.headD ' ') false false).1
            (by rw [hsc])
          rw [h2]
        | ok p =>
          obtain ⟨m1, cr2⟩ := p
          rw [hsc] at h
          dsimp only at h
          obtain ⟨m2, h3⟩ := (scanRanges_cong (classNeg cr).2.length (classNeg cr).2
            le_rfl 0 (if (f || s.isEmpty) = true then ' ' else s.headD ' ')
            (if (f' || s'.isEmpty) = true then ' ' else s'.headD ' ') false false).2
            m1 cr2 hsc
          rw [h3]
          dsimp only
          have hlen2 : cr2.length ≤ N := by
            have h4 := scanRanges_length _ _ _ _ m1 cr2 hsc
            have h5 := classNeg_length cr
            omega
          exact ih cr2 hlen2 _ _ _ _ h
      · rw [if_neg hbr] at h ⊢
        by_cases hq : c = '?'
        · rw [if_pos hq] at h ⊢
          split at h <;> split <;> exact ih cr hcr _ _ _ _ h
        · rw [if_neg hq] at h ⊢
          by_cases hbs : c = '\\'
          · rw [if_pos hbs] at h ⊢
            cases cr with
            | nil => rfl
            | cons d cr2 =>
              have hcr2 : cr2.length ≤ N := by
                simp only [List.length_cons] at hcr ⊢
                omega
              dsimp only at h ⊢
              split at h <;> split <;> exact ih cr2 hcr2 _ _ _ _ h
          · rw [if_neg hbs] at h ⊢
            split at h <;> split <;> exact ih cr hcr _ _ _ _ h

theorem matchChunk_err_cong {chunk s : Str} (s' : Str)
    (h : matchChunk chunk s = .error ()) : matchChunk chunk s' = .error () :=
  matchChunkGo_err_cong chunk.length chunk le_rfl s false s' false h

theorem scanChunkCore_fst_ne (c : Char) (t : Str) (hc : c ≠ '*') :
    (scanChunkCore false (c :: t)).1 ≠ [] := by
  rw [scanChunkCore.eq_def]
  dsimp only
  by_cases h1 : c = '\\'
  · rw [if_pos h1]
    cases t <;> simp
  · rw [if_neg h1]
    by_cases h2 : c = '['
    · rw [if_pos h2]
      simp
    · rw [if_neg h2]
      by_cases h3 : c = ']'
      · rw [if_pos h3]
        simp
      · rw [if_neg h3, if_neg hc]
        simp

theorem scanChunk_rest_nil (p : Str) (h : (scanChunk p).2.1 = []) :
    (scanChunk p).2.2 = [] := by
  cases hsp : (stripStars p).2 with
  | nil =>
    simp [scanChunk, hsp, scanChunkCore]
  | cons c t =>
    have hc : c ≠ '*' := by
      rcases stripStars_head p with h2 | h2
      · rw [hsp] at h2
        exact absurd h2 (by simp)
      · rw [hsp] at h2
        simpa using h2
    exfalso
    apply scanChunkCore_fst_ne c t hc
    simp only [scanChunk] at h
    rw [hsp] at h
    exact h

theorem MatchGo_error_of_validChunks (N : Nat) :
    ∀ (p : Str), p.length ≤ N → validChunks p = .error () →
      ∀ name, MatchGo p name = .error () := by
  induction N with
  | zero =>
    intro p hp hv name
    cases p with
    | cons c t => simp at hp
    | nil =>
      rw [validChunks] at hv
      simp at hv
  | succ N ih =>
    intro p hp hv name
    by_cases hpe : p = []
    · subst hpe
      rw [validChunks] at hv
      simp at hv
    · rw [validChunks, dif_neg hpe] at hv
      cases hm : matchChunk (scanChunk p).2.1 [] with
      | error a =>
        rw [MatchGo, dif_neg hpe]
        rw [if_neg ?hstar]
        case hstar =>
          rintro ⟨h1, h2⟩
          rw [h2] at hm
          rw [matchChunk, matchChunkGo_unfold] at hm
          simp at hm
        have hm2 : matchChunk (scanChunk p).2.1 name = .error () :=
          matchChunk_err_cong name (by rw [hm])
        rw [hm2]
      | ok v =>
        rw [hm] at hv
        dsimp only at hv
        have hrne : (scanChunk p).2.2 ≠ [] := by
          intro hnil
          rw [hnil, validChunks] at hv
          simp at hv
        have ihrest : ∀ nm, MatchGo (scanChunk p).2.2 nm = .error () := by
          intro nm
          have hlt := scanChunk_rest_length p hpe
          exact ih (scanChunk p).2.2 (by omega) hv nm
        rw [MatchGo, dif_neg hpe]
        rw [if_neg ?hstar2]
        case hstar2 =>
          rintro ⟨h1, h2⟩
          exact hrne (scanChunk_rest_nil p h2)
        cases hmn : matchChunk (scanChunk p).2.1 name with
        | error a => rfl
        | ok o =>
          cases o with
          | some t =>
            dsimp only
            rw [if_pos (Or.inr hrne)]
            exact ihrest t
          | none =>
            dsimp only
            rw [matchFallback]
            by_cases hst : (scanChunk p).1 = true
            · rw [if_pos hst]
              cases hsl : starLoop (scanChunk p).2.1 (scanChunk p).2.2 name with
              | error a => rfl
              | ok o2 =>
                cases o2 with
                | some t =>
                  dsimp only
                  exact ihrest t
                | none =>
                  dsimp only
                  rw [hv]
            · rw [if_neg hst]
              rw [hv]

theorem MatchGo_error_of_invalid (p : Str) (h : validChunks p = .error ()) :
    ∀ name, MatchGo p name = .error () :=
  MatchGo_error_of_validChunks p.length p le_rfl h

/-- C10: a syntactically invalid glob pattern (the trailing validity check
of filepath.Match fails) makes Match report ErrBadPattern for every name,
so the glob check of every path prints the bad-pattern message and
evaluates to false, no entry is ever dispatched for content editing or
renaming, and the failure is non-fatal: a plain file visit returns nil with
only the error print as its effects, so the traversal continues and the
process does not abort. -/
theorem claim_C10 (w : walker) (fs : FS) (path name : Str) (isDir errFlag : Bool)
    (hbad : validChunks w.Glob = .error ()) :
    (∀ nm, MatchGo w.Glob nm = .error ()) ∧
      w.matchGlob path = (false, [Effect.print Stream'.stdout badPatternMsg]) ∧
      (w.processFile fs path name isDir errFlag).task = none ∧
      ((isHidden name && !w.IncludeHidden) = false →
        w.processFile fs path name false false =
          ⟨WalkRet.nil, [Effect.print Stream'.stdout badPatternMsg], none⟩) := by
  have hall := MatchGo_error_of_invalid w.Glob hbad
  have hmg : ∀ q, w.matchGlob q = (false, [Effect.print Stream'.stdout badPatternMsg]) := by
    intro q
    rw [walker.matchGlob, hall (base q)]
  refine ⟨hall, hmg path, ?_, ?_⟩
  · rw [walker.processFile]
    split
    · rfl
    · split
      · rfl
      · split
        · rfl
        · dsimp only
          rw [hmg path]
          simp
  · intro hvis
    rw [walker.processFile]
    rw [if_neg (by simp)]
    rw [if_neg (by simp)]
    rw [if_neg (by simp [hvis])]
    dsimp only
    rw [hmg path]
    simp

/-- Witness for C10: the glob is the single unclosed bracket; on the
concrete path dir/file.txt the match error is printed, the file is not
dispatched, and the callback returns nil. -/
theorem claim_C10_witness :
    (∀ nm, MatchGo ({ Glob := s2l "[" } : walker).Glob nm = .error ()) ∧
      walker.matchGlob { Glob := s2l "[" } (s2l "dir/file.txt") =
        (false, [Effect.print Stream'.stdout badPatternMsg]) ∧
      (walker.processFile { Glob := s2l "[" } (fun _ => none) (s2l "dir/file.txt")
          (s2l "file.txt") false false).task = none ∧
      ((isHidden (s2l "file.txt") && !({ Glob := s2l "[" } : walker).IncludeHidden)
          = false →
        walker.processFile { Glob := s2l "[" } (fun _ => none) (s2l "dir/file.txt")
          (s2l "file.txt") false false =
          ⟨WalkRet.nil, [Effect.print Stream'.stdout badPatternMsg], none⟩) :=
  claim_C10 { Glob := s2l "[" } (fun _ => none) (s2l "dir/file.txt") (s2l "file.txt")
    false false
    (by simp [validChunks, scanChunk, stripStars, scanChunkCore, matchChunk,
      matchChunkGo_unfold, scanRanges_unfold, getEsc, classNeg, s2l])

end Jet
